import Mathlib

/-!
Verification of the tree-projection engine of an S3 gateway against its
specification.  Go strings are modelled as lists of characters (`Str`), Go
`int`/`int64` as `Int` with explicit 2^63 bounds where parsing checks them,
and the external object-id type as `Nat` with a decimal encoding.  Stateful
tree operations are modelled by explicit state passing over a `TreeState`
value; the tree backend's five primitives, which live outside this
repository, are modelled from the specification (their definitions say so in
their doc comments).
-/

namespace NeoGw

/-- Go strings, modelled as lists of characters. -/
abbrev Str := List Char

/-- Conversion from a Lean string literal to the model type. -/
def strOf (s : String) : Str := s.data

/-! ### Decimal formatting and parsing (models `strconv`) -/

/-- The character for a single decimal digit. -/
def digitChar (d : Nat) : Char :=
  match d with
  | 0 => '0' | 1 => '1' | 2 => '2' | 3 => '3' | 4 => '4'
  | 5 => '5' | 6 => '6' | 7 => '7' | 8 => '8' | _ => '9'

/-- Numeric value of a decimal digit character. -/
def digitVal (c : Char) : Nat := c.toNat - 48

/-- Whether a character is a decimal digit. -/
def isDigitCh (c : Char) : Bool := 48 ≤ c.toNat && c.toNat ≤ 57

theorem digit_facts : ∀ d < 10, digitVal (digitChar d) = d ∧ isDigitCh (digitChar d) = true := by
  decide

theorem isDigitCh_ne (c : Char) (h : isDigitCh c = true) : c ≠ ',' ∧ c ≠ '-' ∧ c ≠ '+' := by
  refine ⟨?_, ?_, ?_⟩ <;> rintro rfl <;> simp [isDigitCh] at h

/-- Fuelled digit expansion of a natural number, most significant digit
first.  With fuel at least the number itself it computes the full decimal
form (the fuel only makes the recursion structural). -/
def natToStrAux (fuel n : Nat) : Str :=
  match fuel with
  | 0 => []
  | fuel + 1 => if n = 0 then [] else natToStrAux fuel (n / 10) ++ [digitChar (n % 10)]

/-- Decimal form of a natural number (models `strconv.FormatUint`-style output). -/
def natToStr (n : Nat) : Str := if n = 0 then ['0'] else natToStrAux (n + 1) n

/-- Parse a nonempty all-digit string as a natural number. -/
def parseNat (s : Str) : Option Nat :=
  if s ≠ [] && s.all isDigitCh then
    some (s.foldl (fun acc c => acc * 10 + digitVal c) 0)
  else none

theorem natToStrAux_all (fuel n : Nat) : (natToStrAux fuel n).all isDigitCh = true := by
  induction fuel generalizing n with
  | zero => rfl
  | succ fuel ih =>
    by_cases h : n = 0
    · simp [natToStrAux, h]
    · have hm : n % 10 < 10 := Nat.mod_lt _ (by decide)
      simp only [natToStrAux, h, if_false, List.all_append, Bool.and_eq_true]
      refine And.intro (ih (n / 10)) ?_
      simpa using (digit_facts (n % 10) hm).2

theorem natToStrAux_ne_nil (fuel n : Nat) (hn : n ≠ 0) (hf : n ≤ fuel) :
    natToStrAux fuel n ≠ [] := by
  cases fuel with
  | zero => exact absurd (Nat.le_zero.mp hf) hn
  | succ fuel => simp [natToStrAux, hn]

theorem natToStrAux_foldl (fuel : Nat) :
    ∀ n acc, n ≤ fuel →
      (natToStrAux fuel n).foldl (fun acc c => acc * 10 + digitVal c) acc =
        acc * 10 ^ (natToStrAux fuel n).length + n := by
  induction fuel with
  | zero =>
    intro n acc hn
    have : n = 0 := by omega
    simp [natToStrAux, this]
  | succ fuel ih =>
    intro n acc hn
    by_cases h : n = 0
    · simp [natToStrAux, h]
    · have hlt : n / 10 < n := Nat.div_lt_self (Nat.pos_of_ne_zero h) (by decide)
      have hdiv : n / 10 ≤ fuel := by omega
      have hm : n % 10 < 10 := Nat.mod_lt _ (by decide)
      have hmod := (digit_facts (n % 10) hm).1
      simp only [natToStrAux, h, if_false, List.foldl_append, List.foldl_cons, List.foldl_nil,
        List.length_append, List.length_cons, List.length_nil]
      rw [ih (n / 10) acc hdiv, hmod, pow_succ]
      have : acc * (10 ^ (natToStrAux fuel (n / 10)).length * 10) =
          acc * 10 ^ (natToStrAux fuel (n / 10)).length * 10 := by ring
      rw [this, Nat.add_mul, Nat.add_assoc]
      congr 1
      omega

theorem parseNat_eq (s : Str) (h1 : s ≠ []) (h2 : s.all isDigitCh = true) :
    parseNat s = some (s.foldl (fun acc c => acc * 10 + digitVal c) 0) := by
  simp [parseNat, h1, h2]

theorem parseNat_natToStr (n : Nat) : parseNat (natToStr n) = some n := by
  by_cases h : n = 0
  · subst h; decide
  · have hne := natToStrAux_ne_nil (n + 1) n h (by omega)
    have hall := natToStrAux_all (n + 1) n
    have hfold := natToStrAux_foldl (n + 1) n 0 (by omega)
    have hdef : natToStr n = natToStrAux (n + 1) n := by simp [natToStr, h]
    rw [hdef, parseNat_eq _ hne hall, hfold]
    simp

theorem natToStr_ne_nil (n : Nat) : natToStr n ≠ [] := by
  by_cases h : n = 0
  · simp [natToStr, h]
  · simpa [natToStr, h] using natToStrAux_ne_nil (n + 1) n h (by omega)

theorem natToStr_all (n : Nat) : (natToStr n).all isDigitCh = true := by
  by_cases h : n = 0
  · subst h; decide
  · simpa [natToStr, h] using natToStrAux_all (n + 1) n

/-- The int64 overflow bound used by `strconv.ParseInt(_, 10, 64)`. -/
def int64Bound : Nat := 9223372036854775808

/-- Decimal form of an integer (models `strconv.FormatInt` / `%d`). -/
def intToStr (i : Int) : Str :=
  if i < 0 then '-' :: natToStr (-i).toNat else natToStr i.toNat

/-- Models `strconv.ParseInt(s, 10, 64)` (also `strconv.Atoi` on a 64-bit
platform): optional sign, nonempty digit run, int64 range check. -/
def parseInt64 (s : Str) : Option Int :=
  match s with
  | [] => none
  | c :: rest =>
    if c = '-' then
      (parseNat rest).bind (fun n => if n ≤ int64Bound then some (-(n : Int)) else none)
    else if c = '+' then
      (parseNat rest).bind (fun n => if n < int64Bound then some (n : Int) else none)
    else
      (parseNat (c :: rest)).bind (fun n => if n < int64Bound then some (n : Int) else none)

theorem natToStr_head_digit (n : Nat) :
    ∃ c rest, natToStr n = c :: rest ∧ isDigitCh c = true := by
  rcases hs : natToStr n with _ | ⟨c, rest⟩
  · exact absurd hs (natToStr_ne_nil n)
  · refine ⟨c, rest, rfl, ?_⟩
    have := natToStr_all n
    rw [hs] at this
    simp only [List.all_cons, Bool.and_eq_true] at this
    exact this.1

theorem parseInt64_intToStr (i : Int) (hlo : -(int64Bound : Int) ≤ i) (hhi : i < int64Bound) :
    parseInt64 (intToStr i) = some i := by
  by_cases hneg : i < 0
  · have hn : ((-i).toNat : Int) = -i := Int.toNat_of_nonneg (by omega)
    have hle : (-i).toNat ≤ int64Bound := by omega
    rw [intToStr, if_pos hneg]
    show parseInt64 ('-' :: natToStr (-i).toNat) = some i
    rw [parseInt64, if_pos rfl, parseNat_natToStr]
    simp only [Option.some_bind, hle, if_true, Option.some.injEq]
    omega
  · obtain ⟨c, rest, hcr, hc⟩ := natToStr_head_digit i.toNat
    have hni : (i.toNat : Int) = i := Int.toNat_of_nonneg (by omega)
    obtain ⟨h1, h2, h3⟩ := isDigitCh_ne c hc
    have hlt : i.toNat < int64Bound := by omega
    rw [intToStr, if_neg hneg, hcr, parseInt64, if_neg h2, if_neg h3, ← hcr, parseNat_natToStr]
    simp only [Option.some_bind, hlt, if_true, Option.some.injEq]
    exact hni

theorem intToStr_ne_nil (i : Int) : intToStr i ≠ [] := by
  by_cases h : i < 0 <;> simp [intToStr, h, natToStr_ne_nil]

theorem intToStr_no_comma (i : Int) : ',' ∉ intToStr i := by
  intro hmem
  by_cases h : i < 0
  · simp only [intToStr, h, if_true, List.mem_cons] at hmem
    rcases hmem with hmem | hmem
    · exact absurd hmem (by decide)
    · have := natToStr_all (-i).toNat
      rw [List.all_eq_true] at this
      exact (isDigitCh_ne _ (this _ hmem)).1 rfl
  · simp only [intToStr, h, if_false] at hmem
    have := natToStr_all i.toNat
    rw [List.all_eq_true] at this
    exact (isDigitCh_ne _ (this _ hmem)).1 rfl

/-! ### PathEngine: `pathFromName` (source `pathFromName`, tree.go) and the
spec's decoding direction -/

/-- The path separator (source constant `separator`). -/
def separator : Char := '/'

/-- The sentinel for an empty path segment (source constant `emptyFileName`). -/
def emptyFileName : Str := strOf "<empty>"

/-- Replace the first element of a list, if any. -/
def replaceHead (f : Str → Str) : List Str → List Str
  | [] => []
  | x :: xs => f x :: xs

/-- Replace the last element of a list, if any. -/
def replaceLast (f : Str → Str) : List Str → List Str
  | [] => []
  | [x] => [f x]
  | x :: y :: xs => x :: replaceLast f (y :: xs)

/-- The substitution applied by `pathFromName` to the first and last
segment: an empty segment becomes the sentinel. -/
def substEmpty (s : Str) : Str := if s = [] then emptyFileName else s

/-- Source `pathFromName`: split the object name on `/` and substitute the
sentinel for an empty first and last segment. -/
def pathFromName (objectName : Str) : List Str :=
  replaceLast substEmpty (replaceHead substEmpty (objectName.splitOn separator))

/-- The spec's reverse substitution: a sentinel segment becomes empty. -/
def unsubstEmpty (s : Str) : Str := if s = emptyFileName then [] else s

/-- Join path segments with `/`. -/
def joinPath (path : List Str) : Str := [separator].intercalate path

/-- The spec's decoding of an encoded path: substitute `<empty>` back and join. -/
def decodePath (path : List Str) : Str := joinPath (path.map unsubstEmpty)

theorem unsubst_subst (s : Str) (h : s ≠ emptyFileName) :
    unsubstEmpty (substEmpty s) = s := by
  by_cases he : s = []
  · simp [substEmpty, unsubstEmpty, he]
  · simp [substEmpty, unsubstEmpty, he, h]

theorem map_unsubst_replaceLast (l : List Str) (h : ∀ s ∈ l, s ≠ emptyFileName) :
    (replaceLast substEmpty l).map unsubstEmpty = l := by
  induction l with
  | nil => rfl
  | cons x xs ih =>
    cases xs with
    | nil => simp [replaceLast, unsubst_subst x (h x (by simp))]
    | cons y ys =>
      simp only [replaceLast, List.map_cons]
      refine congrArg₂ _ ?_ (ih fun s hs => h s (by simp [hs]))
      have hx : x ≠ emptyFileName := h x (by simp)
      simp [unsubstEmpty, hx]

theorem emptyFileName_ne_nil : emptyFileName ≠ ([] : Str) := by decide

theorem substEmpty_nil : substEmpty [] = emptyFileName := rfl

theorem substEmpty_eq_of_ne (s : Str) (h : s ≠ []) : substEmpty s = s := if_neg h

theorem substEmpty_idem (s : Str) : substEmpty (substEmpty s) = substEmpty s := by
  by_cases h : s = []
  · subst h; rw [substEmpty_nil, substEmpty_eq_of_ne _ emptyFileName_ne_nil]
  · rw [substEmpty_eq_of_ne _ h]; exact substEmpty_eq_of_ne _ h

theorem map_unsubst_pathFromName (l : List Str) (h : ∀ s ∈ l, s ≠ emptyFileName) :
    (replaceLast substEmpty (replaceHead substEmpty l)).map unsubstEmpty = l := by
  cases l with
  | nil => rfl
  | cons x xs =>
    cases xs with
    | nil =>
      simp only [replaceHead, replaceLast, List.map_cons, List.map_nil]
      rw [substEmpty_idem, unsubst_subst x (h x (by simp))]
    | cons y ys =>
      simp only [replaceHead, replaceLast, List.map_cons]
      refine congrArg₂ _ ?_ ?_
      · simp [unsubst_subst x (h x (by simp))]
      · exact map_unsubst_replaceLast (y :: ys) fun s hs => h s (by simp [List.mem_cons] at hs ⊢; tauto)

/-- A key is sentinel-free when none of its `/`-separated segments is the
literal `<empty>`. -/
def SentinelFree (key : Str) : Prop :=
  ∀ s ∈ key.splitOn separator, s ≠ emptyFileName

instance (key : Str) : Decidable (SentinelFree key) :=
  inferInstanceAs (Decidable (∀ s ∈ key.splitOn separator, s ≠ emptyFileName))

theorem decodePath_pathFromName (key : Str) (h : SentinelFree key) :
    decodePath (pathFromName key) = key := by
  unfold decodePath pathFromName joinPath
  rw [map_unsubst_pathFromName (key.splitOn separator) h]
  exact List.intercalate_splitOn key separator

/-- C5: Path round-trip, amended.  For every key whose `/`-segments never
equal the sentinel `<empty>`, joining `pathFromName key` with `/` and
substituting `<empty>` back to the empty segment yields the key again, and
`pathFromName` is injective on such keys.  (On all of `Str` the claim fails:
see the counterexample.) -/
theorem pathFromName_roundtrip :
    (∀ key : Str, SentinelFree key → decodePath (pathFromName key) = key) ∧
    (∀ k₁ k₂ : Str, SentinelFree k₁ → SentinelFree k₂ →
      pathFromName k₁ = pathFromName k₂ → k₁ = k₂) := by
  refine ⟨decodePath_pathFromName, fun k₁ k₂ h₁ h₂ heq => ?_⟩
  calc k₁ = decodePath (pathFromName k₁) := (decodePath_pathFromName k₁ h₁).symm
    _ = decodePath (pathFromName k₂) := by rw [heq]
    _ = k₂ := decodePath_pathFromName k₂ h₂

/-- C5 witness: the round-trip theorem applied to the concrete key `a/b`. -/
theorem pathFromName_roundtrip_witness :
    decodePath (pathFromName (strOf "a/b")) = strOf "a/b" :=
  pathFromName_roundtrip.1 (strOf "a/b") (by decide)

/-- C5 counterexample: `pathFromName` is not injective on all strings — the
empty key and the literal key `<empty>` encode to the same path, and the
decoded image of the key `<empty>` is the empty key, not itself. -/
theorem pathFromName_sentinel_collision :
    pathFromName (strOf "") = pathFromName (strOf "<empty>") ∧
    strOf "" ≠ strOf "<empty>" ∧
    decodePath (pathFromName (strOf "<empty>")) ≠ strOf "<empty>" := by
  decide

/-! ### Lock configuration encoding (source `parseLockConfiguration`,
`encodeLockConfiguration`, tree.go) -/

/-- Default retention of a lock configuration (fields of the repository's
`data.DefaultRetention`: `Days int64`, `Mode string`, `Years int64`). -/
structure DefaultRetention where
  days : Int
  mode : Str
  years : Int
deriving DecidableEq

/-- The repository's `data.ObjectLockRule` (a nullable default retention). -/
structure ObjectLockRule where
  defaultRetention : Option DefaultRetention
deriving DecidableEq

/-- The repository's `data.ObjectLockConfiguration`; `rule = none` models a
nil `Rule` pointer. -/
structure ObjectLockConfiguration where
  objectLockEnabled : Str
  rule : Option ObjectLockRule
deriving DecidableEq

/-- Source `encodeLockConfiguration`: nil encodes to the empty string; with
no default retention only the enabled field is emitted; otherwise the
four-field comma-joined form. -/
def encodeLockConfiguration : Option ObjectLockConfiguration → Str
  | none => []
  | some conf =>
    match conf.rule with
    | none => conf.objectLockEnabled
    | some rule =>
      match rule.defaultRetention with
      | none => conf.objectLockEnabled
      | some defaults =>
        conf.objectLockEnabled ++ ',' :: intToStr defaults.days ++ ',' :: defaults.mode ++
          ',' :: intToStr defaults.years

/-- Source `parseLockConfiguration`: the empty string parses to the empty
configuration; one field sets only the enabled flag; exactly four fields set
a default retention, with empty day/year fields read as 0; anything else is
an invalid-configuration error (`none`). -/
def parseLockConfiguration (value : Str) : Option ObjectLockConfiguration :=
  if value = [] then some ⟨[], none⟩
  else
    let lockValues := value.splitOn ','
    let enabled := lockValues.headI
    if lockValues.length = 1 then some ⟨enabled, none⟩
    else if lockValues.length ≠ 4 then none
    else
      (if (lockValues.getD 1 []).length > 0 then parseInt64 (lockValues.getD 1 []) else some 0).bind
        fun days =>
          (if (lockValues.getD 3 []).length > 0 then parseInt64 (lockValues.getD 3 [])
            else some 0).bind
            fun years => some ⟨enabled, some ⟨some ⟨days, lockValues.getD 2 [], years⟩⟩⟩

/-- Well-formedness of a lock configuration: the enabled field and the
retention mode contain no comma, a non-nil rule carries a default retention,
and day/year counts are in int64 range (they are `int64` fields in Go). -/
def wellFormedLock (c : ObjectLockConfiguration) : Bool :=
  decide (',' ∉ c.objectLockEnabled) &&
    match c.rule with
    | none => true
    | some rule =>
      match rule.defaultRetention with
      | none => false
      | some d =>
        decide (',' ∉ d.mode) && decide (-(int64Bound : Int) ≤ d.days) &&
          decide (d.days < int64Bound) && decide (-(int64Bound : Int) ≤ d.years) &&
          decide (d.years < int64Bound)

theorem splitOn_no_sep (l : Str) (x : Char) (h : x ∉ l) : l.splitOn x = [l] := by
  have h2 : [x].intercalate [l] = l := by simp [List.intercalate]
  have := List.splitOn_intercalate [l] x (by simpa using h) (by simp)
  rwa [h2] at this

theorem splitOn_intercalate_four (x : Char) (a b c d : Str) (ha : x ∉ a) (hb : x ∉ b)
    (hc : x ∉ c) (hd : x ∉ d) :
    ([x].intercalate [a, b, c, d]).splitOn x = [a, b, c, d] := by
  refine List.splitOn_intercalate [a, b, c, d] x ?_ (by simp)
  intro l hl
  simp only [List.mem_cons, List.not_mem_nil, or_false] at hl
  rcases hl with rfl | rfl | rfl | rfl <;> assumption

theorem encodeLock_retention_eq (e m : Str) (dv yv : Int) :
    e ++ ',' :: intToStr dv ++ ',' :: m ++ ',' :: intToStr yv =
      [','].intercalate [e, intToStr dv, m, intToStr yv] := by
  simp [List.intercalate, List.intersperse]

/-- C7: Lock-configuration round-trip.  `encode nil` is the empty string,
parsing the empty string yields the empty configuration, and for every
well-formed configuration parsing its encoding restores it exactly. -/
theorem lockConfiguration_roundtrip :
    encodeLockConfiguration none = [] ∧
    parseLockConfiguration [] = some ⟨[], none⟩ ∧
    ∀ c : ObjectLockConfiguration, wellFormedLock c = true →
      parseLockConfiguration (encodeLockConfiguration (some c)) = some c := by
  refine ⟨rfl, rfl, fun c hwf => ?_⟩
  have henm : ',' ∉ c.objectLockEnabled := by
    rw [wellFormedLock, Bool.and_eq_true] at hwf
    exact of_decide_eq_true hwf.1
  rcases c with ⟨e, _ | ⟨_ | d⟩⟩
  · -- Rule is nil: only the enabled field is encoded.
    by_cases he : e = []
    · subst he; rfl
    · have hsplit := splitOn_no_sep e ',' henm
      simp only [encodeLockConfiguration, parseLockConfiguration, he, if_false, hsplit]
      rfl
  · -- Rule present but no default retention: excluded by well-formedness.
    exfalso
    rw [wellFormedLock] at hwf
    simp at hwf
  · -- Full four-field form.
    rw [wellFormedLock] at hwf
    simp only [Bool.and_eq_true, Bool.not_eq_true', decide_eq_true_eq] at hwf
    obtain ⟨-, ⟨⟨⟨hmnm, hdlo⟩, hdhi⟩, hylo⟩, hyhi⟩ := hwf
    have heq : encodeLockConfiguration (some ⟨e, some ⟨some d⟩⟩) =
        [','].intercalate [e, intToStr d.days, d.mode, intToStr d.years] :=
      encodeLock_retention_eq e d.mode d.days d.years
    have hne : encodeLockConfiguration (some ⟨e, some ⟨some d⟩⟩) ≠ [] := by
      show e ++ ',' :: intToStr d.days ++ ',' :: d.mode ++ ',' :: intToStr d.years ≠ []
      simp
    have hsplit : (encodeLockConfiguration (some ⟨e, some ⟨some d⟩⟩)).splitOn ',' =
        [e, intToStr d.days, d.mode, intToStr d.years] := by
      rw [heq]
      exact splitOn_intercalate_four ',' _ _ _ _ henm (intToStr_no_comma _) hmnm
        (intToStr_no_comma _)
    rw [parseLockConfiguration, if_neg hne]
    simp only [hsplit]
    have hd : (intToStr d.days).length > 0 := List.length_pos.mpr (intToStr_ne_nil _)
    have hy : (intToStr d.years).length > 0 := List.length_pos.mpr (intToStr_ne_nil _)
    simp only [List.length_cons, List.length_nil, List.getD, List.headI, if_neg, List.getElem?_cons_succ,
      List.getElem?_cons_zero, Option.getD_some]
    norm_num
    rw [if_pos hd, if_pos hy, parseInt64_intToStr d.days hdlo hdhi,
      parseInt64_intToStr d.years hylo hyhi]
    rfl

/-- C7 witness: the round-trip theorem applied to a concrete configuration
with a compliance retention of 30 days and 2 years. -/
theorem lockConfiguration_roundtrip_witness :
    wellFormedLock ⟨strOf "Enabled", some ⟨some ⟨30, strOf "COMPLIANCE", 2⟩⟩⟩ = true ∧
    parseLockConfiguration
        (encodeLockConfiguration (some ⟨strOf "Enabled", some ⟨some ⟨30, strOf "COMPLIANCE", 2⟩⟩⟩)) =
      some ⟨strOf "Enabled", some ⟨some ⟨30, strOf "COMPLIANCE", 2⟩⟩⟩ :=
  ⟨by decide, lockConfiguration_roundtrip.2.2 _ (by decide)⟩

/-! ### NodeCodec: decoding tree nodes (source `newTreeNode`,
`newNodeVersionFromTreeNode`, `newNodeVersion`) -/

/-- A node body received from the tree service (source `NodeResponse`):
node id, backend timestamp and the raw key/value metadata list. -/
structure NodeResp where
  nodeId : Nat
  timestamp : Nat
  meta : List (Str × Str)
deriving DecidableEq

/-- Reserved metadata key `OID`. -/
def oidKV : Str := strOf "OID"

/-- Reserved metadata key `FileName`. -/
def fileNameKV : Str := strOf "FileName"

/-- Reserved metadata key `Size`. -/
def sizeKV : Str := strOf "Size"

/-- Reserved metadata key `ETag`. -/
def etagKV : Str := strOf "ETag"

/-- Reserved metadata key `IsUnversioned`. -/
def isUnversionedKV : Str := strOf "IsUnversioned"

/-- Reserved metadata key `IsDeleteMarker`. -/
def isDeleteMarkerKV : Str := strOf "IsDeleteMarker"

/-- Reserved metadata key `Owner`. -/
def ownerKV : Str := strOf "Owner"

/-- Reserved metadata key `Created`. -/
def createdKV : Str := strOf "Created"

/-- Reserved metadata key `UploadId`. -/
def uploadIDKV : Str := strOf "UploadId"

/-- Reserved metadata key `Number`. -/
def partNumberKV : Str := strOf "Number"

/-- Models `oid.ID.DecodeString` of the external SDK: object ids are
modelled as naturals whose valid string form is a decimal digit run (the
Go zero value is 0); any other string fails to decode. -/
def decodeOid (s : Str) : Option Nat := parseNat s

/-- Models `oid.ID.EncodeToString` for the model id type. -/
def encodeOid (n : Nat) : Str := natToStr n

/-- The in-memory `TreeNode` of the source: id, decoded object id (Go zero
value 0 when the key is absent), timestamp, decoded size, and the remaining
metadata entries. -/
structure TreeNodeM where
  id : Nat
  objID : Nat
  timeStamp : Nat
  size : Int
  meta : List (Str × Str)
deriving DecidableEq

/-- Go map insertion (`m[k] = v`): the new binding shadows any previous one. -/
def metaInsert (m : List (Str × Str)) (k v : Str) : List (Str × Str) :=
  (k, v) :: m.filter (fun kv => kv.1 ≠ k)

/-- One step of the `newTreeNode` metadata loop: `OID` values must decode,
nonempty `Size` values must parse as int64, everything else lands in the
metadata map. -/
def newTreeNodeStep (acc : Option TreeNodeM) (kv : Str × Str) : Option TreeNodeM :=
  acc.bind fun t =>
    if kv.1 = oidKV then (decodeOid kv.2).map fun o => { t with objID := o }
    else if kv.1 = sizeKV then
      if kv.2.length > 0 then (parseInt64 kv.2).map fun z => { t with size := z }
      else some t
    else some { t with meta := metaInsert t.meta kv.1 kv.2 }

/-- Source `newTreeNode`: fold the metadata entries over a zero-initialised
node, failing on an undecodable `OID` or an unparsable nonempty `Size`. -/
def newTreeNode (node : NodeResp) : Option TreeNodeM :=
  node.meta.foldl newTreeNodeStep
    (some { id := node.nodeId, objID := 0, timeStamp := node.timestamp, size := 0, meta := [] })

theorem foldl_newTreeNodeStep_none (l : List (Str × Str)) :
    l.foldl newTreeNodeStep none = none := by
  induction l with
  | nil => rfl
  | cons kv rest ih => exact ih

/-- A metadata entry on which the `newTreeNode` loop must fail. -/
def BadEntry (kv : Str × Str) : Prop :=
  (kv.1 = oidKV ∧ decodeOid kv.2 = none) ∨
    (kv.1 = sizeKV ∧ kv.2 ≠ [] ∧ parseInt64 kv.2 = none)

theorem foldl_newTreeNodeStep_bad (l : List (Str × Str)) (acc : Option TreeNodeM)
    (h : ∃ kv ∈ l, BadEntry kv) : l.foldl newTreeNodeStep acc = none := by
  induction l generalizing acc with
  | nil => obtain ⟨kv, hkv, -⟩ := h; exact absurd hkv (List.not_mem_nil kv)
  | cons kv rest ih =>
    obtain ⟨bad, hbad, hb⟩ := h
    rcases List.mem_cons.mp hbad with rfl | hmem
    · have hstep : newTreeNodeStep acc bad = none := by
        cases acc with
        | none => rfl
        | some t =>
          rcases hb with ⟨hk, hv⟩ | ⟨hk, hne, hv⟩
          · simp [newTreeNodeStep, hk, hv]
          · have hlen : bad.2.length > 0 := List.length_pos.mpr hne
            have hso : sizeKV ≠ oidKV := by decide
            simp [newTreeNodeStep, hk, hso, hlen, hv]
      rw [List.foldl_cons, hstep]
      exact foldl_newTreeNodeStep_none rest
    · exact ih _ ⟨bad, hmem, hb⟩

/-- C8, amended: decoding a node whose metadata carries an `OID` value that
does not decode as an object id, or a **nonempty** `Size` value that does
not parse as a decimal int64, fails with an error rather than producing a
node with a defaulted field.  (An empty `Size` value is silently skipped by
the source — see the counterexample.) -/
theorem newTreeNode_invalid_fails (node : NodeResp)
    (h : (∃ v, (oidKV, v) ∈ node.meta ∧ decodeOid v = none) ∨
      (∃ v, (sizeKV, v) ∈ node.meta ∧ v ≠ [] ∧ parseInt64 v = none)) :
    newTreeNode node = none := by
  refine foldl_newTreeNodeStep_bad node.meta _ ?_
  rcases h with ⟨v, hmem, hv⟩ | ⟨v, hmem, hne, hv⟩
  · exact ⟨(oidKV, v), hmem, Or.inl ⟨rfl, hv⟩⟩
  · exact ⟨(sizeKV, v), hmem, Or.inr ⟨rfl, hne, hv⟩⟩

/-- C8 witness: a node with the undecodable `OID` value "zzz" fails to decode. -/
theorem newTreeNode_invalid_fails_witness :
    newTreeNode ⟨1, 0, [(oidKV, strOf "zzz")]⟩ = none :=
  newTreeNode_invalid_fails _ (Or.inl ⟨strOf "zzz", by decide, by decide⟩)

/-- C8 counterexample: the empty string does not parse as a decimal int64,
yet a node whose `Size` value is empty decodes successfully with the field
defaulted to 0 (the source skips the parse when the value has length 0). -/
theorem newTreeNode_empty_size_defaults :
    parseInt64 [] = none ∧
    newTreeNode ⟨7, 3, [(sizeKV, [])]⟩ =
      some { id := 7, objID := 0, timeStamp := 3, size := 0, meta := [] } := by
  decide

/-! ### Gateway errors and `getVersions` (source `getNodes`, `getVersions`) -/

/-- Errors surfaced by the gateway.  `nodeNotFound` models the sentinel
`layer.ErrNodeNotFound`.  Modelled from the spec: the sentinel (declared
outside the given sources) is surfaced so that callers can branch on it,
and the source tests errors with `strings.Contains(err.Error(), "not
found")`, so the sentinel's message is taken to be exactly "not found". -/
inductive TreeErr where
  | nodeNotFound
  | noNodeToRemove
  | other (msg : Str)
deriving DecidableEq

/-- The `Error()` text of a gateway error. -/
def errText : TreeErr → Str
  | .nodeNotFound => strOf "not found"
  | .noNodeToRemove => strOf "no node to remove"
  | .other msg => msg

/-- Whether `pat` occurs at the start of `s`. -/
def leadsWith : Str → Str → Bool
  | [], _ => true
  | _ :: _, [] => false
  | p :: ps, c :: cs => p == c && leadsWith ps cs

/-- Index of the first occurrence of `pat` in `s` (models `strings.Index`). -/
def findSub (pat : Str) : Str → Option Nat
  | [] => if pat = [] then some 0 else none
  | c :: rest => if leadsWith pat (c :: rest) then some 0 else (findSub pat rest).map (· + 1)

/-- Models `strings.Contains`. -/
def containsSub (pat s : Str) : Bool := (findSub pat s).isSome

/-- Source `getNodes` error handling: a transport error whose message
contains "not found" becomes the sentinel, other errors are wrapped; a
successful response is passed through. -/
def getNodesResp (svc : Except Str (List NodeResp)) : Except TreeErr (List NodeResp) :=
  match svc with
  | .ok nodes => .ok nodes
  | .error msg =>
    if containsSub (strOf "not found") msg then .error TreeErr.nodeNotFound
    else .error (TreeErr.other (strOf "failed to get node path: " ++ msg))

/-- Info about a delete marker attached to a version (source
`data.DeleteMarkerInfo`; the creation time in UNIX milliseconds, the owner
modelled as its string form). -/
structure DeleteMarkerM where
  created : Int
  owner : Str
deriving DecidableEq

/-- The source `data.NodeVersion` (with its embedded `BaseNodeVersion`). -/
structure NodeVersionM where
  id : Nat
  oid : Nat
  timestamp : Nat
  size : Int
  etag : Str
  filePath : Str
  deleteMarker : Option DeleteMarkerM
  isUnversioned : Bool
deriving DecidableEq

/-- Source `TreeNode.Get`: look a key up in the decoded metadata. -/
def metaGet (t : TreeNodeM) (k : Str) : Option Str := t.meta.lookup k

/-- Source `newNodeVersionFromTreeNode`. -/
def newNodeVersionFromTreeNode (filePath : Str) (t : TreeNodeM) : NodeVersionM :=
  { id := t.id, oid := t.objID, timestamp := t.timeStamp,
    size := t.size, etag := (metaGet t etagKV).getD [], filePath := filePath,
    deleteMarker :=
      if (metaGet t isDeleteMarkerKV).isSome then
        some { created := ((metaGet t createdKV).bind parseInt64).getD 0,
               owner := (metaGet t ownerKV).getD [] }
      else none,
    isUnversioned := (metaGet t isUnversionedKV).isSome }

/-- Source `newNodeVersion`: decode the raw node, then build the version. -/
def newNodeVersion (filePath : Str) (node : NodeResp) : Option NodeVersionM :=
  (newTreeNode node).map (newNodeVersionFromTreeNode filePath)

/-- The decode loop of `getVersions`: every returned node must decode, and
the first corrupt node fails the whole read. -/
def decodeVersions (filepath : Str) : List NodeResp → Option (List NodeVersionM)
  | [] => some []
  | node :: rest =>
    match newNodeVersion filepath node with
    | none => none
    | some v => (decodeVersions filepath rest).map fun vs => v :: vs

/-- Source `getVersions` (tree.go), over the result of the path lookup: a
"not found" error yields an empty list and no error, other errors are
wrapped, and on success every node is decoded (failing the whole read on a
corrupt node) and optionally filtered to unversioned entries. -/
def getVersionsFromNodes (lookupRes : Except TreeErr (List NodeResp)) (filepath : Str)
    (onlyUnversioned : Bool) : Except TreeErr (List NodeVersionM) :=
  match lookupRes with
  | .error e =>
    if containsSub (strOf "not found") (errText e) then .ok []
    else .error (TreeErr.other (strOf "couldn't get nodes: " ++ errText e))
  | .ok nodes =>
    match decodeVersions filepath nodes with
    | none => .error (TreeErr.other (strOf "invalid tree node"))
    | some vs => .ok (if onlyUnversioned then vs.filter (·.isUnversioned) else vs)

/-- C9: when the backend reports a not-found condition for the path lookup,
listing the versions at the path returns an empty list and no error — both
when the sentinel itself is returned and when a raw transport error whose
message contains "not found" passes through `getNodes`. -/
theorem getVersions_not_found_empty :
    (∀ fp onlyUnv, getVersionsFromNodes (.error TreeErr.nodeNotFound) fp onlyUnv = .ok []) ∧
    (∀ msg fp onlyUnv, containsSub (strOf "not found") msg = true →
      getVersionsFromNodes (getNodesResp (.error msg)) fp onlyUnv = .ok []) := by
  have hself : containsSub (strOf "not found") (errText TreeErr.nodeNotFound) = true := by decide
  refine ⟨fun fp onlyUnv => ?_, fun msg fp onlyUnv hmsg => ?_⟩
  · simp [getVersionsFromNodes, hself]
  · simp [getNodesResp, hmsg, getVersionsFromNodes, hself]

/-- C9 witness: the theorem applied to a concrete transport message. -/
theorem getVersions_not_found_empty_witness :
    getVersionsFromNodes (getNodesResp (.error (strOf "rpc error: node not found")))
      (strOf "a/b") true = .ok [] :=
  getVersions_not_found_empty.2 (strOf "rpc error: node not found") (strOf "a/b") true (by decide)

/-! ### ListingEngine: `ListObjectVersions` (source `layer.ListObjectVersions`,
`triageVersions`; `triageExtendedObjects` and the collection step are
modelled from the spec) -/

/-- The fields of `data.ObjectInfo` read by the listing: the object key, the
result of the `Version()` method (an object-id string, or "null" for an
unversioned object — the method body is outside the given sources, so its
value is carried as data), and the delete-marker flag. -/
structure ObjectInfo where
  name : Str
  version : Str
  isDeleteMarker : Bool
deriving DecidableEq

/-- The source `data.ExtendedObjectInfo`: the object info, the fields of its
`NodeVersion` that the listing reads (`Timestamp`, `IsUnversioned`), and the
computed latest flag. -/
structure ExtendedObjectInfo where
  objectInfo : ObjectInfo
  timestamp : Nat
  isUnversioned : Bool
  isLatest : Bool
deriving DecidableEq

/-- The source `ObjectVersionInfo` built for the response. -/
structure ObjectVersionInfo where
  object : ObjectInfo
  isUnversioned : Bool
  isLatest : Bool
deriving DecidableEq

/-- The source `ListObjectVersionsParams` fields the core algorithm reads. -/
structure ListParams where
  pfx : Str
  delim : Str
  keyMarker : Str
  versionIDMarker : Str
  maxKeys : Int
deriving DecidableEq

/-- The outcome of the pagination step (the marker fields default to the
empty string, as Go zero values do). -/
structure PageOut where
  objects : List ExtendedObjectInfo
  isTruncated : Bool
  nextKeyMarker : Str
  nextVersionIDMarker : Str
  keyMarker : Str
  versionIDMarker : Str
deriving DecidableEq

/-- The source `ListObjectVersionsInfo` response record. -/
structure ListObjectVersionsInfo where
  commonPrefixes : List Str
  isTruncated : Bool
  keyMarker : Str
  nextKeyMarker : Str
  nextVersionIDMarker : Str
  versionIDMarker : Str
  version : List ObjectVersionInfo
  deleteMarker : List ObjectVersionInfo
deriving DecidableEq

/-- The comparison `sort.Slice` uses on a name group: newer timestamps
first (the source comparator is `ts j < ts i`, i.e. sorted output is
non-increasing in timestamp). -/
def tsGE (a b : ExtendedObjectInfo) : Prop := b.timestamp ≤ a.timestamp

instance : DecidableRel tsGE := fun a b => Nat.decLe b.timestamp a.timestamp

instance : IsTotal ExtendedObjectInfo tsGE :=
  ⟨fun a b => Nat.le_total b.timestamp a.timestamp⟩

instance : IsTrans ExtendedObjectInfo tsGE :=
  ⟨fun _ _ _ hab hbc => Nat.le_trans hbc hab⟩

/-- The `sort.Strings` pass over the map keys. -/
def sortedNamesOf (versions : List (Str × List ExtendedObjectInfo)) : List Str :=
  List.insertionSort (· ≤ ·) (versions.map Prod.fst)

/-- The `sort.Slice` pass over one name group (descending timestamps). -/
def sortGroup (l : List ExtendedObjectInfo) : List ExtendedObjectInfo :=
  List.insertionSort tsGE l

/-- The `version.IsLatest = i == 0` assignment over a sorted group. -/
def markLatest : List ExtendedObjectInfo → List ExtendedObjectInfo
  | [] => []
  | v :: vs => { v with isLatest := true } :: vs.map (fun w => { w with isLatest := false })

/-- Steps 1–3 of `ListObjectVersions`: iterate the names in sorted order,
sort each group by descending timestamp, flag index 0 as latest, append. -/
def flattenVersions (versions : List (Str × List ExtendedObjectInfo)) :
    List ExtendedObjectInfo :=
  (sortedNamesOf versions).flatMap fun name =>
    markLatest (sortGroup ((versions.lookup name).getD []))

/-- The source cursor condition:
`obj.ObjectInfo.Name >= p.KeyMarker && obj.ObjectInfo.Version() >= p.VersionIDMarker`. -/
def qualifies (p : ListParams) (obj : ExtendedObjectInfo) : Bool :=
  decide (p.keyMarker ≤ obj.objectInfo.name) &&
    decide (p.versionIDMarker ≤ obj.objectInfo.version)

/-- The source cursor loop: at the first qualifying position the suffix from
there replaces the list and the loop breaks; if no position qualifies the
list is left as it was (`orig`). -/
def cursorScan (p : ListParams) (orig : List ExtendedObjectInfo) :
    List ExtendedObjectInfo → List ExtendedObjectInfo
  | [] => orig
  | x :: xs => if qualifies p x then x :: xs else cursorScan p orig xs

/-- Step 4 of `ListObjectVersions` (the `for i, obj := range allObjects` loop). -/
def advanceCursor (p : ListParams) (l : List ExtendedObjectInfo) : List ExtendedObjectInfo :=
  cursorScan p l l

/-- Modelled from the spec: the common prefix a key collapses to — when a
delimiter is set and the key has the listing prefix, a delimiter occurrence
in the remainder collapses the key to the prefix extended up to and
including the first delimiter. -/
def commonPrefixOf (pfx delim name : Str) : Option Str :=
  if delim = [] then none
  else if leadsWith pfx name then
    (findSub delim (name.drop pfx.length)).map fun i =>
      pfx ++ (name.drop pfx.length).take (i + delim.length)
  else none

/-- Modelled from the spec: `triageExtendedObjects` (its body is not among
the given sources) moves every version whose key collapses under the
delimiter into the distinct common prefixes and keeps the rest. -/
def triageExtendedObjects (p : ListParams) (objs : List ExtendedObjectInfo) :
    List Str × List ExtendedObjectInfo :=
  ((objs.filterMap fun o => commonPrefixOf p.pfx p.delim o.objectInfo.name).dedup,
   objs.filter fun o => (commonPrefixOf p.pfx p.delim o.objectInfo.name).isNone)

/-- A Go slice read `l[i]` with an `int` index; an out-of-range index is a
panic, modelled as `none`. -/
def goIndex (l : List ExtendedObjectInfo) (i : Int) : Option ExtendedObjectInfo :=
  if i < 0 then none else l.get? i.toNat

/-- Step 6 of `ListObjectVersions` (the `len(allObjects) > p.MaxKeys`
block): record the first dropped element as the next markers, truncate, and
echo the last included element as the current markers.  The two Go index
reads are evaluated in source order. -/
def paginate (maxKeys : Int) (allObjects : List ExtendedObjectInfo) : Option PageOut :=
  if (allObjects.length : Int) > maxKeys then
    (goIndex allObjects maxKeys).bind fun dropped =>
      (goIndex (allObjects.take maxKeys.toNat) (maxKeys - 1)).map fun lastIncluded =>
        { objects := allObjects.take maxKeys.toNat, isTruncated := true,
          nextKeyMarker := dropped.objectInfo.name,
          nextVersionIDMarker := dropped.objectInfo.version,
          keyMarker := lastIncluded.objectInfo.name,
          versionIDMarker := lastIncluded.objectInfo.version }
  else
    some { objects := allObjects, isTruncated := false, nextKeyMarker := [],
           nextVersionIDMarker := [], keyMarker := [], versionIDMarker := [] }

/-- Source `triageVersions`: stable partition into live versions and delete
markers. -/
def triageVersions (objVersions : List ObjectVersionInfo) :
    List ObjectVersionInfo × List ObjectVersionInfo :=
  (objVersions.filter fun v => !v.object.isDeleteMarker,
   objVersions.filter fun v => v.object.isDeleteMarker)

/-- The response entry built for each listed object. -/
def toObjectVersionInfo (obj : ExtendedObjectInfo) : ObjectVersionInfo :=
  { object := obj.objectInfo, isUnversioned := obj.isUnversioned, isLatest := obj.isLatest }

/-- The flat list left after the cursor advance and the delimiter collapse
(the input of the pagination step). -/
def remainingAfterCollapse (versions : List (Str × List ExtendedObjectInfo)) (p : ListParams) :
    List ExtendedObjectInfo :=
  (triageExtendedObjects p (advanceCursor p (flattenVersions versions))).2

/-- Source `layer.ListObjectVersions` over the grouped versions map (the
collection step `getAllObjectsVersions` is outside the given sources; its
result — the map from file path to versions — is the input here). -/
def listObjectVersions (versions : List (Str × List ExtendedObjectInfo)) (p : ListParams) :
    Option ListObjectVersionsInfo :=
  (paginate p.maxKeys (remainingAfterCollapse versions p)).map fun pg =>
    let objects := pg.objects.map toObjectVersionInfo
    { commonPrefixes := (triageExtendedObjects p (advanceCursor p (flattenVersions versions))).1,
      isTruncated := pg.isTruncated,
      keyMarker := pg.keyMarker, nextKeyMarker := pg.nextKeyMarker,
      nextVersionIDMarker := pg.nextVersionIDMarker, versionIDMarker := pg.versionIDMarker,
      version := (triageVersions objects).1, deleteMarker := (triageVersions objects).2 }

theorem qualifies_true_iff (p : ListParams) (x : ExtendedObjectInfo) :
    qualifies p x = true ↔
      (p.keyMarker ≤ x.objectInfo.name ∧ p.versionIDMarker ≤ x.objectInfo.version) := by
  simp [qualifies]

theorem cursorScan_no_hit (p : ListParams) (orig : List ExtendedObjectInfo) :
    ∀ l, (∀ x ∈ l, qualifies p x = false) → cursorScan p orig l = orig := by
  intro l
  induction l with
  | nil => intro _; rfl
  | cons x xs ih =>
    intro h
    rw [cursorScan, if_neg (by simp [h x (by simp)])]
    exact ih fun y hy => h y (by simp [hy])

theorem cursorScan_first_hit (p : ListParams) (orig : List ExtendedObjectInfo) :
    ∀ (l : List ExtendedObjectInfo) (i : Nat) (h : i < l.length),
      qualifies p (l.get ⟨i, h⟩) = true →
      (∀ j (hj : j < i), qualifies p (l.get ⟨j, Nat.lt_trans hj h⟩) = false) →
      cursorScan p orig l = l.drop i := by
  intro l
  induction l with
  | nil => intro i h; exact absurd h (by simp)
  | cons x xs ih =>
    intro i h hq hbefore
    cases i with
    | zero =>
      rw [cursorScan, if_pos (show qualifies p x = true from hq)]
      rfl
    | succ k =>
      have hx : qualifies p x = false := hbefore 0 (Nat.succ_pos k)
      rw [cursorScan, if_neg (by simp [hx])]
      have hk : k < xs.length := Nat.lt_of_succ_lt_succ h
      exact ih k hk hq fun j hj => hbefore (j + 1) (Nat.succ_lt_succ hj)

/-- C2 amended: the cursor step of `ListObjectVersions` keeps exactly the
suffix starting at the first position whose (Name, Version) is
componentwise ≥ (KeyMarker, VersionIDMarker) under lexicographic string
comparison — and when no position qualifies the list is left **unchanged**
(the claim's "the resulting list is empty" does not hold; see the
counterexample). -/
theorem advanceCursor_spec (p : ListParams) (l : List ExtendedObjectInfo) :
    ((∀ x ∈ l, ¬(p.keyMarker ≤ x.objectInfo.name ∧ p.versionIDMarker ≤ x.objectInfo.version)) →
      advanceCursor p l = l) ∧
    (∀ i (h : i < l.length),
      (p.keyMarker ≤ (l.get ⟨i, h⟩).objectInfo.name ∧
        p.versionIDMarker ≤ (l.get ⟨i, h⟩).objectInfo.version) →
      (∀ j (hj : j < i),
        ¬(p.keyMarker ≤ (l.get ⟨j, Nat.lt_trans hj h⟩).objectInfo.name ∧
          p.versionIDMarker ≤ (l.get ⟨j, Nat.lt_trans hj h⟩).objectInfo.version)) →
      advanceCursor p l = l.drop i) := by
  constructor
  · intro h
    refine cursorScan_no_hit p l l fun x hx => ?_
    have := h x hx
    rw [← qualifies_true_iff p x] at this
    simpa using this
  · intro i h hq hbefore
    refine cursorScan_first_hit p l l i h ((qualifies_true_iff p _).mpr hq) fun j hj => ?_
    have := hbefore j hj
    rw [← qualifies_true_iff p _] at this
    simpa using this

/-- C2 witness: the cursor theorem applied to a concrete two-element list
whose second element is the first qualifying one. -/
theorem advanceCursor_spec_witness :
    advanceCursor ⟨[], [], strOf "b", [], 5⟩
        [⟨⟨strOf "a", strOf "v", false⟩, 2, false, true⟩,
         ⟨⟨strOf "b", strOf "w", false⟩, 1, false, true⟩] =
      List.drop 1
        [⟨⟨strOf "a", strOf "v", false⟩, 2, false, true⟩,
         ⟨⟨strOf "b", strOf "w", false⟩, 1, false, true⟩] :=
  (advanceCursor_spec _ _).2 1 (by decide) (by decide) (by decide)

/-- C2 counterexample: with KeyMarker "b" over the single object named "a"
no position qualifies, yet the cursor step returns the list unchanged (one
element), not the empty list. -/
theorem advanceCursor_no_qualifier_keeps_list :
    (∀ x ∈ [(⟨⟨strOf "a", strOf "v", false⟩, 2, false, true⟩ : ExtendedObjectInfo)],
      qualifies ⟨[], [], strOf "b", [], 5⟩ x = false) ∧
    advanceCursor ⟨[], [], strOf "b", [], 5⟩
        [⟨⟨strOf "a", strOf "v", false⟩, 2, false, true⟩] =
      [⟨⟨strOf "a", strOf "v", false⟩, 2, false, true⟩] ∧
    ([(⟨⟨strOf "a", strOf "v", false⟩, 2, false, true⟩ : ExtendedObjectInfo)] : List _) ≠ [] := by
  decide

theorem goIndex_eq_get (l : List ExtendedObjectInfo) (i : Int) (h0 : 0 ≤ i)
    (h : i.toNat < l.length) : goIndex l i = some (l.get ⟨i.toNat, h⟩) := by
  rw [goIndex, if_neg (by omega), List.get?_eq_get h]

theorem paginate_spec (maxKeys : Int) (l : List ExtendedObjectInfo) (hmk : 1 ≤ maxKeys) :
    (∀ _ : (l.length : Int) > maxKeys,
      ∃ (h1 : maxKeys.toNat < l.length) (h2 : maxKeys.toNat - 1 < l.length),
        paginate maxKeys l = some
          ⟨l.take maxKeys.toNat, true,
            (l.get ⟨maxKeys.toNat, h1⟩).objectInfo.name,
            (l.get ⟨maxKeys.toNat, h1⟩).objectInfo.version,
            (l.get ⟨maxKeys.toNat - 1, h2⟩).objectInfo.name,
            (l.get ⟨maxKeys.toNat - 1, h2⟩).objectInfo.version⟩) ∧
    (¬((l.length : Int) > maxKeys) → paginate maxKeys l = some ⟨l, false, [], [], [], []⟩) := by
  constructor
  · intro hgt
    have h1 : maxKeys.toNat < l.length := by omega
    have h2 : maxKeys.toNat - 1 < l.length := by omega
    refine ⟨h1, h2, ?_⟩
    have hlen : (l.take maxKeys.toNat).length = maxKeys.toNat := by
      rw [List.length_take]; omega
    have hidx : (maxKeys - 1).toNat = maxKeys.toNat - 1 := by omega
    have h2' : (maxKeys - 1).toNat < (l.take maxKeys.toNat).length := by
      rw [hlen]; omega
    have hget2 : (l.take maxKeys.toNat).get ⟨(maxKeys - 1).toNat, h2'⟩ =
        l.get ⟨maxKeys.toNat - 1, h2⟩ := by
      simp only [hidx]
      simp [List.getElem_take']
    rw [paginate, if_pos hgt, goIndex_eq_get l maxKeys (by omega) h1,
      goIndex_eq_get (l.take maxKeys.toNat) (maxKeys - 1) (by omega) h2']
    rw [Option.some_bind, Option.map_some', hget2]
  · intro hng
    rw [paginate, if_neg hng]

/-- C4: the pagination of `ListObjectVersions`, for MaxKeys ≥ 1.  When the
flat list remaining after cursor advance and delimiter collapse exceeds
MaxKeys, the result is truncated: `IsTruncated` is set, the next markers
are the (Name, Version) of the first dropped element (index MaxKeys), the
returned entries are exactly those of the first MaxKeys elements, and the
echoed markers are the (Name, Version) of the last included element (index
MaxKeys-1); otherwise none of these fields is set and the whole list is
returned. -/
theorem listObjectVersions_pagination (versions : List (Str × List ExtendedObjectInfo))
    (p : ListParams) (hmk : 1 ≤ p.maxKeys) :
    ∃ res, listObjectVersions versions p = some res ∧
      ((((remainingAfterCollapse versions p).length : Int) > p.maxKeys →
        ∃ (h1 : p.maxKeys.toNat < (remainingAfterCollapse versions p).length)
          (h2 : p.maxKeys.toNat - 1 < (remainingAfterCollapse versions p).length),
          res.isTruncated = true ∧
          res.nextKeyMarker =
            ((remainingAfterCollapse versions p).get ⟨p.maxKeys.toNat, h1⟩).objectInfo.name ∧
          res.nextVersionIDMarker =
            ((remainingAfterCollapse versions p).get ⟨p.maxKeys.toNat, h1⟩).objectInfo.version ∧
          res.keyMarker =
            ((remainingAfterCollapse versions p).get
              ⟨p.maxKeys.toNat - 1, h2⟩).objectInfo.name ∧
          res.versionIDMarker =
            ((remainingAfterCollapse versions p).get
              ⟨p.maxKeys.toNat - 1, h2⟩).objectInfo.version ∧
          res.version =
            (triageVersions (((remainingAfterCollapse versions p).take p.maxKeys.toNat).map
              toObjectVersionInfo)).1 ∧
          res.deleteMarker =
            (triageVersions (((remainingAfterCollapse versions p).take p.maxKeys.toNat).map
              toObjectVersionInfo)).2) ∧
      (¬(((remainingAfterCollapse versions p).length : Int) > p.maxKeys) →
        res.isTruncated = false ∧ res.nextKeyMarker = [] ∧ res.nextVersionIDMarker = [] ∧
        res.keyMarker = [] ∧ res.versionIDMarker = [] ∧
        res.version =
          (triageVersions ((remainingAfterCollapse versions p).map toObjectVersionInfo)).1 ∧
        res.deleteMarker =
          (triageVersions ((remainingAfterCollapse versions p).map toObjectVersionInfo)).2)) := by
  by_cases hgt : ((remainingAfterCollapse versions p).length : Int) > p.maxKeys
  · obtain ⟨h1, h2, hpag⟩ := (paginate_spec p.maxKeys (remainingAfterCollapse versions p) hmk).1 hgt
    refine ⟨_, by rw [listObjectVersions, hpag]; rfl, fun _ => ⟨h1, h2, ?_⟩, fun hc => absurd hgt hc⟩
    exact ⟨rfl, rfl, rfl, rfl, rfl, rfl, rfl⟩
  · have hpag := (paginate_spec p.maxKeys (remainingAfterCollapse versions p) hmk).2 hgt
    refine ⟨_, by rw [listObjectVersions, hpag]; rfl, fun hc => absurd hc hgt, fun _ => ?_⟩
    exact ⟨rfl, rfl, rfl, rfl, rfl, rfl, rfl⟩

/-- C4 witness: pagination at MaxKeys = 1 over two versions of one object
produces a result. -/
theorem listObjectVersions_pagination_witness :
    (listObjectVersions
        [(strOf "a", [⟨⟨strOf "a", strOf "v", false⟩, 2, false, false⟩,
                      ⟨⟨strOf "a", strOf "w", false⟩, 1, false, false⟩])]
        ⟨[], [], [], [], 1⟩).isSome = true := by
  obtain ⟨res, hres, -⟩ := listObjectVersions_pagination
    [(strOf "a", [⟨⟨strOf "a", strOf "v", false⟩, 2, false, false⟩,
                  ⟨⟨strOf "a", strOf "w", false⟩, 1, false, false⟩])]
    ⟨[], [], [], [], 1⟩ (by decide)
  rw [hres]
  rfl

/-- C10: `ListObjectVersions` is total exactly under MaxKeys ≥ 1: with
MaxKeys ≥ 1 every slice index of the pagination step is in bounds (the run
produces a result), while with MaxKeys = 0 and at least one object left
after cursor advance and delimiter collapse, the echoed-marker read indexes
position MaxKeys-1 of the already-truncated empty list, out of bounds (the
run panics, modelled as `none`). -/
theorem listObjectVersions_index_safety :
    (∀ versions p, 1 ≤ p.maxKeys → (listObjectVersions versions p).isSome = true) ∧
    (∀ versions p, p.maxKeys = 0 → remainingAfterCollapse versions p ≠ [] →
      listObjectVersions versions p = none) := by
  constructor
  · intro versions p hmk
    by_cases hgt : ((remainingAfterCollapse versions p).length : Int) > p.maxKeys
    · obtain ⟨h1, h2, hpag⟩ :=
        (paginate_spec p.maxKeys (remainingAfterCollapse versions p) hmk).1 hgt
      rw [listObjectVersions, hpag]
      rfl
    · rw [listObjectVersions, (paginate_spec p.maxKeys (remainingAfterCollapse versions p) hmk).2 hgt]
      rfl
  · intro versions p hmk hne
    have hlen : 0 < (remainingAfterCollapse versions p).length := List.length_pos.mpr hne
    have hgt : ((remainingAfterCollapse versions p).length : Int) > p.maxKeys := by
      rw [hmk]; exact_mod_cast hlen
    have hg1 : goIndex (remainingAfterCollapse versions p) p.maxKeys =
        some ((remainingAfterCollapse versions p).get ⟨p.maxKeys.toNat, by rw [hmk]; simpa using hlen⟩) :=
      goIndex_eq_get _ _ (by rw [hmk]) (by rw [hmk]; simpa using hlen)
    have htake : (remainingAfterCollapse versions p).take p.maxKeys.toNat = [] := by
      rw [hmk]; rfl
    have hg2 : goIndex ((remainingAfterCollapse versions p).take p.maxKeys.toNat)
        (p.maxKeys - 1) = none := by
      rw [goIndex, if_pos (by rw [hmk]; decide)]
    rw [listObjectVersions, paginate, if_pos hgt, hg1, Option.some_bind, hg2]
    rfl

/-- C10 witness: concrete runs — a result at MaxKeys = 1, a panic at
MaxKeys = 0 with one object remaining. -/
theorem listObjectVersions_index_safety_witness :
    (listObjectVersions [(strOf "a", [⟨⟨strOf "a", strOf "v", false⟩, 2, false, false⟩])]
        ⟨[], [], [], [], 1⟩).isSome = true ∧
    listObjectVersions [(strOf "a", [⟨⟨strOf "a", strOf "v", false⟩, 2, false, false⟩])]
        ⟨[], [], [], [], 0⟩ = none :=
  ⟨listObjectVersions_index_safety.1
      [(strOf "a", [⟨⟨strOf "a", strOf "v", false⟩, 2, false, false⟩])]
      ⟨[], [], [], [], 1⟩ (by decide),
   listObjectVersions_index_safety.2
      [(strOf "a", [⟨⟨strOf "a", strOf "v", false⟩, 2, false, false⟩])]
      ⟨[], [], [], [], 0⟩ rfl (by decide)⟩

/-! ### The latest-flag invariant of `ListObjectVersions` (C3) -/

/-- The entries of a flat list that belong to one name group. -/
def nameFilter (name : Str) (l : List ExtendedObjectInfo) : List ExtendedObjectInfo :=
  l.filter fun o => decide (o.objectInfo.name = name)

/-- The shape of a healthy name group as it sits in the flat list: the head
carries the latest flag, nobody else does, and the head's timestamp is
maximal. -/
def GroupOK : List ExtendedObjectInfo → Prop
  | [] => True
  | h :: t => h.isLatest = true ∧ (∀ x ∈ t, x.isLatest = false) ∧
      ∀ x ∈ h :: t, x.timestamp ≤ h.timestamp

theorem mem_markLatest_sortGroup (g : List ExtendedObjectInfo) (x : ExtendedObjectInfo)
    (hx : x ∈ markLatest (sortGroup g)) :
    ∃ y ∈ g, x.objectInfo = y.objectInfo ∧ x.timestamp = y.timestamp := by
  have hperm : List.Perm (sortGroup g) g := List.perm_insertionSort tsGE g
  cases hs : sortGroup g with
  | nil => rw [hs] at hx; exact absurd hx (List.not_mem_nil x)
  | cons h t =>
    rw [hs, markLatest] at hx
    rcases List.mem_cons.mp hx with rfl | hxt
    · exact ⟨h, hperm.mem_iff.mp (hs ▸ List.mem_cons_self h t), rfl, rfl⟩
    · obtain ⟨y, hy, rfl⟩ := List.mem_map.mp hxt
      exact ⟨y, hperm.mem_iff.mp (hs ▸ List.mem_cons_of_mem h hy), rfl, rfl⟩

theorem groupOK_markLatest_sortGroup (g : List ExtendedObjectInfo) :
    GroupOK (markLatest (sortGroup g)) := by
  have hsorted : List.Sorted tsGE (sortGroup g) := List.sorted_insertionSort tsGE g
  cases hs : sortGroup g with
  | nil => trivial
  | cons h t =>
    rw [hs] at hsorted
    have hrel : ∀ x ∈ t, tsGE h x := List.rel_of_sorted_cons hsorted
    rw [markLatest]
    refine ⟨rfl, fun x hx => ?_, fun x hx => ?_⟩
    · obtain ⟨y, _, rfl⟩ := List.mem_map.mp hx
      rfl
    · rcases List.mem_cons.mp hx with rfl | hxt
      · exact Nat.le_refl _
      · obtain ⟨y, hy, rfl⟩ := List.mem_map.mp hxt
        exact hrel y hy

theorem lookup_mem (l : List (Str × List ExtendedObjectInfo)) (k : Str)
    (v : List ExtendedObjectInfo) (h : l.lookup k = some v) : (k, v) ∈ l := by
  induction l with
  | nil => simp [List.lookup] at h
  | cons a rest ih =>
    rw [List.lookup] at h
    cases hk : k == a.fst with
    | true =>
      rw [hk] at h
      have : a = (k, v) := by
        obtain ⟨a1, a2⟩ := a
        simp only [beq_iff_eq] at hk
        simp only [Option.some.injEq] at h
        simp [hk, h]
      simp [this]
    | false =>
      rw [hk] at h
      exact List.mem_cons_of_mem _ (ih h)

theorem block_names (versions : List (Str × List ExtendedObjectInfo))
    (hcoh : ∀ nv ∈ versions, ∀ v ∈ nv.2, v.objectInfo.name = nv.1) (k : Str) :
    ∀ x ∈ markLatest (sortGroup ((versions.lookup k).getD [])), x.objectInfo.name = k := by
  intro x hx
  rcases hl : versions.lookup k with _ | g
  · rw [hl] at hx
    exact absurd hx (List.not_mem_nil x)
  · rw [hl] at hx
    obtain ⟨y, hy, hobj, -⟩ := mem_markLatest_sortGroup g x hx
    rw [hobj, hcoh (k, g) (lookup_mem versions k g hl) y hy]

theorem nameFilter_flatMap (name : Str) (ns : List Str) (f : Str → List ExtendedObjectInfo)
    (hf : ∀ k, ∀ x ∈ f k, x.objectInfo.name = k) (hnd : ns.Nodup) :
    nameFilter name (ns.flatMap f) = if name ∈ ns then f name else [] := by
  induction ns with
  | nil => simp [nameFilter]
  | cons k rest ih =>
    obtain ⟨hknr, hndr⟩ := List.nodup_cons.mp hnd
    rw [List.flatMap_cons, nameFilter, List.filter_append]
    by_cases hk : name = k
    · subst hk
      have h1 : (f name).filter (fun o => decide (o.objectInfo.name = name)) = f name :=
        List.filter_eq_self.mpr fun x hx => by simp [hf name x hx]
      have h2 : nameFilter name (rest.flatMap f) = [] := by
        rw [ih hndr, if_neg hknr]
      rw [h1, show List.filter (fun o => decide (o.objectInfo.name = name)) (rest.flatMap f) =
        nameFilter name (rest.flatMap f) from rfl, h2, if_pos (List.mem_cons_self name rest),
        List.append_nil]
    · have h1 : (f k).filter (fun o => decide (o.objectInfo.name = name)) = [] :=
        List.filter_eq_nil_iff.mpr fun x hx => by
          simp only [hf k x hx, decide_eq_true_eq]
          exact fun h => hk h.symm
      rw [h1, List.nil_append,
        show List.filter (fun o => decide (o.objectInfo.name = name)) (rest.flatMap f) =
          nameFilter name (rest.flatMap f) from rfl, ih hndr]
      by_cases hmem : name ∈ rest
      · rw [if_pos hmem, if_pos (List.mem_cons_of_mem k hmem)]
      · rw [if_neg hmem, if_neg (by simp [hk, hmem])]

theorem groupOK_nil : GroupOK [] := trivial

theorem nameFilter_flatten_groupOK (versions : List (Str × List ExtendedObjectInfo))
    (hnd : (versions.map Prod.fst).Nodup)
    (hcoh : ∀ nv ∈ versions, ∀ v ∈ nv.2, v.objectInfo.name = nv.1) (name : Str) :
    GroupOK (nameFilter name (flattenVersions versions)) := by
  have hnd2 : (sortedNamesOf versions).Nodup :=
    (List.perm_insertionSort (· ≤ ·) (versions.map Prod.fst)).nodup_iff.mpr hnd
  rw [flattenVersions, nameFilter_flatMap name _ _ (block_names versions hcoh) hnd2]
  by_cases hmem : name ∈ sortedNamesOf versions
  · rw [if_pos hmem]
    exact groupOK_markLatest_sortGroup _
  · rw [if_neg hmem]
    exact groupOK_nil

theorem nameFilter_filter_comm (name : Str) (q : ExtendedObjectInfo → Bool)
    (l : List ExtendedObjectInfo) :
    nameFilter name (l.filter q) = (nameFilter name l).filter q := by
  simp only [nameFilter, List.filter_filter]
  exact List.filter_congr fun x _ => Bool.and_comm _ _

theorem filter_const_on (l : List ExtendedObjectInfo) (q : ExtendedObjectInfo → Bool) (c : Bool)
    (h : ∀ x ∈ l, q x = c) : l.filter q = if c then l else [] := by
  cases c
  · rw [if_neg (by simp)]
    exact List.filter_eq_nil_iff.mpr fun x hx => by simp [h x hx]
  · rw [if_pos rfl]
    exact List.filter_eq_self.mpr h

theorem groupOK_of_prefix (l t : List ExtendedObjectInfo) (h : t <+: l) (hg : GroupOK l) :
    GroupOK t := by
  rcases t with _ | ⟨x, xs⟩
  · trivial
  · obtain ⟨r, hr⟩ := h
    rcases l with _ | ⟨y, ys⟩
    · exact absurd hr (by simp)
    · rw [List.cons_append] at hr
      obtain ⟨rfl, hys⟩ : x = y ∧ xs ++ r = ys := by
        constructor
        · exact (List.cons.injEq ..).mp hr |>.1
        · exact (List.cons.injEq ..).mp hr |>.2
      obtain ⟨h1, h2, h3⟩ := hg
      refine ⟨h1, fun z hz => h2 z (by rw [← hys]; exact List.mem_append_left r hz),
        fun z hz => h3 z ?_⟩
      rcases List.mem_cons.mp hz with rfl | hzt
      · exact List.mem_cons_self _ _
      · exact List.mem_cons_of_mem _ (by rw [← hys]; exact List.mem_append_left r hzt)

theorem nameFilter_prefix (name : Str) (l t : List ExtendedObjectInfo) (h : t <+: l) :
    nameFilter name t <+: nameFilter name l := by
  obtain ⟨r, rfl⟩ := h
  exact ⟨nameFilter name r, (List.filter_append ..).symm⟩

/-- The collapse predicate of the delimiter step depends only on the name. -/
theorem remainingAfterCollapse_groupOK (versions : List (Str × List ExtendedObjectInfo))
    (p : ListParams) (hnd : (versions.map Prod.fst).Nodup)
    (hcoh : ∀ nv ∈ versions, ∀ v ∈ nv.2, v.objectInfo.name = nv.1)
    (hk : p.keyMarker = []) (hv : p.versionIDMarker = []) (name : Str) :
    GroupOK (nameFilter name (remainingAfterCollapse versions p)) := by
  have hcur : advanceCursor p (flattenVersions versions) = flattenVersions versions := by
    rcases hl : flattenVersions versions with _ | ⟨x, xs⟩
    · rfl
    · have hq : qualifies p x = true := by
        rw [qualifies, hk, hv]
        simp [List.nil_le]
      rw [advanceCursor, cursorScan, if_pos hq]
  rw [remainingAfterCollapse, triageExtendedObjects, hcur]
  rw [nameFilter_filter_comm]
  rw [filter_const_on (nameFilter name (flattenVersions versions)) _
    ((commonPrefixOf p.pfx p.delim name).isNone) ?hconst]
  case hconst =>
    intro x hx
    have : x.objectInfo.name = name := by
      have := (List.mem_filter.mp hx).2
      simpa using this
    rw [this]
  by_cases hc : (commonPrefixOf p.pfx p.delim name).isNone
  · rw [if_pos hc]
    exact nameFilter_flatten_groupOK versions hnd hcoh name
  · rw [if_neg hc]
    exact groupOK_nil

theorem paginate_objects_take (mk : Int) (l : List ExtendedObjectInfo) (pg : PageOut)
    (h : paginate mk l = some pg) : ∃ n, pg.objects = l.take n := by
  rw [paginate] at h
  by_cases hgt : (l.length : Int) > mk
  · rw [if_pos hgt] at h
    obtain ⟨a, -, hmap⟩ := Option.bind_eq_some.mp h
    obtain ⟨b, -, hpg⟩ := Option.map_eq_some'.mp hmap
    refine ⟨mk.toNat, ?_⟩
    rw [← hpg]
  · rw [if_neg hgt] at h
    obtain rfl := (Option.some.injEq ..).mp h
    exact ⟨l.length, (List.take_length l).symm⟩

theorem countP_partition (r q : ObjectVersionInfo → Bool) (l : List ObjectVersionInfo) :
    (l.filter q).countP r + (l.filter fun x => !q x).countP r = l.countP r := by
  induction l with
  | nil => rfl
  | cons x xs ih =>
    cases hq : q x <;> cases hr : r x <;>
      simp [List.filter_cons, List.countP_cons, hq, hr] <;> omega

theorem groupOK_count (l : List ExtendedObjectInfo) (hg : GroupOK l) :
    l.countP (fun o => o.isLatest) = if l = [] then 0 else 1 := by
  rcases l with _ | ⟨h, t⟩
  · rfl
  · obtain ⟨h1, h2, -⟩ := hg
    rw [if_neg (by simp)]
    rw [List.countP_cons, List.countP_eq_zero.mpr (fun x hx => by simp [h2 x hx])]
    simp [h1]

theorem groupOK_head_unique (l : List ExtendedObjectInfo) (hg : GroupOK l)
    (o : ExtendedObjectInfo) (ho : o ∈ l) (hlat : o.isLatest = true) :
    ∀ o' ∈ l, o'.timestamp ≤ o.timestamp := by
  rcases l with _ | ⟨h, t⟩
  · exact absurd ho (List.not_mem_nil o)
  · obtain ⟨-, h2, h3⟩ := hg
    have : o = h := by
      rcases List.mem_cons.mp ho with rfl | hot
      · rfl
      · exact absurd hlat (by simp [h2 o hot])
    exact this ▸ h3

theorem mem_triage_iff (o : ObjectVersionInfo) (l : List ObjectVersionInfo) :
    (o ∈ (triageVersions l).1 ∨ o ∈ (triageVersions l).2) ↔ o ∈ l := by
  simp only [triageVersions, List.mem_filter]
  constructor
  · rintro (⟨h, -⟩ | ⟨h, -⟩) <;> exact h
  · intro h
    by_cases hdm : o.object.isDeleteMarker = true
    · exact Or.inr ⟨h, hdm⟩
    · exact Or.inl ⟨h, by simp [hdm]⟩

/-- C3 amended: with empty `KeyMarker`/`VersionIDMarker`, within each group
of same-name versions of a `ListObjectVersions` result exactly one entry
has `IsLatest = true` (the count of flagged same-name entries over the two
returned lists is 1 whenever the name occurs at all), and that entry has
the maximum `NodeVersion.Timestamp` of its group on the listed page.  With
a non-empty marker pair a result group can retain no flagged entry, because
the flags are assigned before the cursor discards the head of a group — see
the counterexample. -/
theorem listObjectVersions_latest_unique (versions : List (Str × List ExtendedObjectInfo))
    (p : ListParams) (res : ListObjectVersionsInfo)
    (hnd : (versions.map Prod.fst).Nodup)
    (hcoh : ∀ nv ∈ versions, ∀ v ∈ nv.2, v.objectInfo.name = nv.1)
    (hk : p.keyMarker = []) (hv : p.versionIDMarker = [])
    (hres : listObjectVersions versions p = some res) :
    ∀ name : Str,
      ((res.version ++ res.deleteMarker).countP
          (fun o => decide (o.object.name = name) && o.isLatest) =
        if ∃ o ∈ res.version ++ res.deleteMarker, o.object.name = name then 1 else 0) ∧
      (∀ pg, paginate p.maxKeys (remainingAfterCollapse versions p) = some pg →
        ∀ o ∈ pg.objects, o.objectInfo.name = name → o.isLatest = true →
          ∀ o' ∈ pg.objects, o'.objectInfo.name = name → o'.timestamp ≤ o.timestamp) := by
  intro name
  have hgroup : ∀ pg, paginate p.maxKeys (remainingAfterCollapse versions p) = some pg →
      GroupOK (nameFilter name pg.objects) := by
    intro pg hpg
    obtain ⟨n, hobj⟩ := paginate_objects_take p.maxKeys (remainingAfterCollapse versions p) pg hpg
    refine groupOK_of_prefix _ _ ?_ (remainingAfterCollapse_groupOK versions p hnd hcoh hk hv name)
    rw [hobj]
    exact nameFilter_prefix name _ _ (List.take_prefix n _)
  constructor
  · -- the count over the two returned lists
    obtain ⟨pg, hpg, hresdef⟩ := Option.map_eq_some'.mp hres
    have hver : res.version =
        (pg.objects.map toObjectVersionInfo).filter (fun v => !v.object.isDeleteMarker) := by
      rw [← hresdef]; rfl
    have hdm : res.deleteMarker =
        (pg.objects.map toObjectVersionInfo).filter (fun v => v.object.isDeleteMarker) := by
      rw [← hresdef]; rfl
    set r : ObjectVersionInfo → Bool := fun o => decide (o.object.name = name) && o.isLatest with hr
    have hcount : (res.version ++ res.deleteMarker).countP r =
        (pg.objects.map toObjectVersionInfo).countP r := by
      rw [List.countP_append, hver, hdm]
      have := countP_partition r (fun v => !v.object.isDeleteMarker)
        (pg.objects.map toObjectVersionInfo)
      rw [← this]
      congr 1
      refine congrArg _ (List.filter_congr fun x _ => ?_)
      simp
    have hmapcount : (pg.objects.map toObjectVersionInfo).countP r =
        (nameFilter name pg.objects).countP (fun o => o.isLatest) := by
      rw [List.countP_map, nameFilter, List.countP_filter]
      refine List.countP_congr fun x _ => ?_
      simp [hr, toObjectVersionInfo, Bool.and_comm]
    have hcnt := groupOK_count _ (hgroup pg hpg)
    rw [hcount, hmapcount, hcnt]
    have hpresent : (∃ o ∈ res.version ++ res.deleteMarker, o.object.name = name) ↔
        ¬(nameFilter name pg.objects = []) := by
      constructor
      · rintro ⟨o, ho, honame⟩ hempty
        have homem : o ∈ pg.objects.map toObjectVersionInfo := by
          rw [← mem_triage_iff o (pg.objects.map toObjectVersionInfo)]
          rcases List.mem_append.mp ho with h | h
          · exact Or.inl (by rw [hver] at h; exact h)
          · exact Or.inr (by rw [hdm] at h; exact h)
        obtain ⟨y, hy, rfl⟩ := List.mem_map.mp homem
        have : y ∈ nameFilter name pg.objects :=
          List.mem_filter.mpr ⟨hy, by simp [toObjectVersionInfo] at honame; simp [honame]⟩
        rw [hempty] at this
        exact List.not_mem_nil y this
      · intro hne
        obtain ⟨y, hy⟩ := List.exists_mem_of_ne_nil _ hne
        obtain ⟨hyo, hyname⟩ := List.mem_filter.mp hy
        refine ⟨toObjectVersionInfo y, ?_, by simpa [toObjectVersionInfo] using hyname⟩
        have : toObjectVersionInfo y ∈ pg.objects.map toObjectVersionInfo :=
          List.mem_map.mpr ⟨y, hyo, rfl⟩
        rw [← mem_triage_iff (toObjectVersionInfo y) (pg.objects.map toObjectVersionInfo)] at this
        rcases this with h | h
        · exact List.mem_append_left _ (by rw [hver]; exact h)
        · exact List.mem_append_right _ (by rw [hdm]; exact h)
    by_cases hex : ∃ o ∈ res.version ++ res.deleteMarker, o.object.name = name
    · rw [if_pos hex, if_neg (hpresent.mp hex)]
    · rw [if_neg hex]
      by_cases hempty : nameFilter name pg.objects = []
      · rw [if_pos hempty]
      · exact absurd (hpresent.mpr hempty) hex
  · -- the flagged entry has the maximal timestamp of its group on the page
    intro pg hpg o ho honame hlat o' ho' honame'
    have hmem : o ∈ nameFilter name pg.objects :=
      List.mem_filter.mpr ⟨ho, by simp [honame]⟩
    have hmem' : o' ∈ nameFilter name pg.objects :=
      List.mem_filter.mpr ⟨ho', by simp [honame']⟩
    exact groupOK_head_unique _ (hgroup pg hpg) o hmem hlat o' hmem'

/-- C3 witness: the theorem applied to a concrete two-version object with
empty markers. -/
theorem listObjectVersions_latest_unique_witness :
    (listObjectVersions
        [(strOf "a", [⟨⟨strOf "a", strOf "v", false⟩, 2, false, false⟩,
                      ⟨⟨strOf "a", strOf "w", false⟩, 1, false, false⟩])]
        ⟨[], [], [], [], 5⟩).isSome = true ∧
    ∀ res, listObjectVersions
        [(strOf "a", [⟨⟨strOf "a", strOf "v", false⟩, 2, false, false⟩,
                      ⟨⟨strOf "a", strOf "w", false⟩, 1, false, false⟩])]
        ⟨[], [], [], [], 5⟩ = some res →
      (res.version ++ res.deleteMarker).countP
          (fun o => decide (o.object.name = strOf "a") && o.isLatest) =
        if ∃ o ∈ res.version ++ res.deleteMarker, o.object.name = strOf "a" then 1 else 0 := by
  refine ⟨by decide, fun res hres => ?_⟩
  exact (listObjectVersions_latest_unique
    [(strOf "a", [⟨⟨strOf "a", strOf "v", false⟩, 2, false, false⟩,
                  ⟨⟨strOf "a", strOf "w", false⟩, 1, false, false⟩])]
    ⟨[], [], [], [], 5⟩ res (by decide) (by decide) rfl rfl hres (strOf "a")).1

/-- C3 counterexample: with KeyMarker "a" and VersionIDMarker "w" the cursor
drops the flagged newest version of "a" but keeps the older one, so the
result contains one entry of the group and none of its entries carries
`IsLatest` — the claim fails for non-empty markers. -/
theorem listObjectVersions_marker_drops_latest :
    (listObjectVersions
        [(strOf "a", [⟨⟨strOf "a", strOf "v", false⟩, 2, false, false⟩,
                      ⟨⟨strOf "a", strOf "w", false⟩, 1, false, false⟩])]
        ⟨[], [], strOf "a", strOf "w", 5⟩).map
        (fun r => ((r.version ++ r.deleteMarker).length,
          (r.version ++ r.deleteMarker).countP (fun o => o.isLatest))) = some (1, 0) := by
  decide

/-! ### The tree backend state model.  The backend itself is an external
collaborator; its five primitives are modelled from the spec (§6), and the
engine operations from tree.go are embedded over them. -/

/-- A node of the backend tree: id, parent id and metadata.  Backend
timestamps are omitted from the state (no claim in this development depends
on them; decoding reads them as 0). -/
structure TreeStNode where
  id : Nat
  parent : Nat
  meta : List (Str × Str)
deriving DecidableEq

/-- The backend tree state: the nodes in creation order and the next fresh
node id.  Node id 0 is the implicit root and never a real node. -/
structure TreeState where
  nodes : List TreeStNode
  nextId : Nat
deriving DecidableEq

/-- Well-formedness of a state: distinct ids, no node with the root id 0,
ids and parent references below `nextId`, and a positive `nextId`. -/
def WfState (s : TreeState) : Prop :=
  (s.nodes.map TreeStNode.id).Nodup ∧ 0 < s.nextId ∧
    ∀ n ∈ s.nodes, n.id ≠ 0 ∧ n.id < s.nextId ∧ n.parent < s.nextId

instance (s : TreeState) : Decidable (WfState s) :=
  inferInstanceAs (Decidable (_ ∧ _ ∧ _))

/-- View of a state node as a service node body. -/
def toNodeResp (n : TreeStNode) : NodeResp := ⟨n.id, 0, n.meta⟩

/-- Modelled from the spec: the backend `Add` primitive appends a fresh
node and returns its id. -/
def svcAdd (s : TreeState) (parent : Nat) (meta : List (Str × Str)) : Nat × TreeState :=
  (s.nextId, ⟨s.nodes ++ [⟨s.nextId, parent, meta⟩], s.nextId + 1⟩)

/-- Modelled from the spec: the backend `Move` primitive re-parents a node
and replaces (not merges) its metadata. -/
def svcMove (s : TreeState) (nodeId parent : Nat) (meta : List (Str × Str)) : TreeState :=
  ⟨s.nodes.map fun n => if n.id = nodeId then ⟨n.id, parent, meta⟩ else n, s.nextId⟩

/-- The `FileName` attribute of a node. -/
def nodeFileName (n : TreeStNode) : Option Str := n.meta.lookup fileNameKV

/-- The node ids reachable from `ids` through one `FileName = seg` edge. -/
def levelIds (s : TreeState) (ids : List Nat) (seg : Str) : List Nat :=
  (s.nodes.filter fun n =>
    decide (n.parent ∈ ids) && nodeFileName n == some seg).map TreeStNode.id

/-- Modelled from the spec: the node ids the backend resolves for a path
(`GetNodeByPath` follows the `FileName` attribute from the implicit root,
id 0). -/
def resolvePath (s : TreeState) (path : List Str) : List Nat :=
  path.foldl (levelIds s) [0]

/-- Modelled from the spec: the nodes `GetNodeByPath` returns for a path. -/
def svcGetByPath (s : TreeState) (path : List Str) : List TreeStNode :=
  s.nodes.filter fun n => decide (n.id ∈ resolvePath s path)

/-- The first existing child with the given `FileName`, which the backend's
`AddByPath` reuses as an intermediate. -/
def childWithName (s : TreeState) (pid : Nat) (seg : Str) : Option TreeStNode :=
  (s.nodes.filter fun n => n.parent == pid && nodeFileName n == some seg).head?

/-- The descent of `AddByPath`: reuse a child with the wanted name or
create an intermediate (metadata `FileName` only), then add the new node
under the last intermediate. -/
def svcAddByPathGo (meta : List (Str × Str)) : TreeState → Nat → List Str → Nat × TreeState
  | s, cur, [] => svcAdd s cur meta
  | s, cur, seg :: rest =>
    match childWithName s cur seg with
    | some n => svcAddByPathGo meta s n.id rest
    | none =>
      svcAddByPathGo meta (svcAdd s cur [(fileNameKV, seg)]).2
        (svcAdd s cur [(fileNameKV, seg)]).1 rest

/-- Modelled from the spec: the backend `AddByPath` primitive ("creates or
reuses intermediates"). -/
def svcAddByPath (s : TreeState) (path : List Str) (meta : List (Str × Str)) : Nat × TreeState :=
  svcAddByPathGo meta s 0 path

/-- Source `getParent`: a depth-0 subtree holds just the node, and the
source reads `subTree[0].GetParentId()` (an empty response would panic,
modelled as `none`). -/
def getParentOf (s : TreeState) (id : Nat) : Option Nat :=
  ((s.nodes.filter fun n => n.id == id).get? 0).map TreeStNode.parent

/-- A depth-1 subtree as streamed by `GetSubTree`: the root node followed
by its direct children. -/
def svcSubTree1 (s : TreeState) (rootId : Nat) : List TreeStNode :=
  (s.nodes.filter fun n => n.id == rootId) ++
    (s.nodes.filter fun n => n.parent == rootId && n.id != rootId)

/-! ### MultipartStore: `newPartInfo` and `AddPart` (source tree.go) -/

/-- The source `data.PartInfo` fields the tree layer reads and writes
(`Key`/`UploadID` are not stored in part metadata). -/
structure PartInfoM where
  number : Int
  oid : Nat
  size : Int
  etag : Str
  created : Int
deriving DecidableEq

/-- One step of the `newPartInfo` metadata loop: `Number`, `OID`, `Size`
and `Created` must parse, `ETag` is copied, other keys are ignored. -/
def newPartInfoStep (acc : Option PartInfoM) (kv : Str × Str) : Option PartInfoM :=
  acc.bind fun info =>
    if kv.1 = partNumberKV then (parseInt64 kv.2).map fun n => { info with number := n }
    else if kv.1 = oidKV then (decodeOid kv.2).map fun o => { info with oid := o }
    else if kv.1 = etagKV then some { info with etag := kv.2 }
    else if kv.1 = sizeKV then (parseInt64 kv.2).map fun z => { info with size := z }
    else if kv.1 = createdKV then (parseInt64 kv.2).map fun t => { info with created := t }
    else some info

/-- Source `newPartInfo`: parse the metadata, failing on any malformed
field, and reject a nonpositive part number ("it's not a part node"). -/
def newPartInfo (node : TreeStNode) : Option PartInfoM :=
  (node.meta.foldl newPartInfoStep (some ⟨0, 0, 0, [], 0⟩)).bind fun info =>
    if info.number ≤ 0 then none else some info

/-- The part metadata written by `AddPart`. -/
def partMeta (info : PartInfoM) : List (Str × Str) :=
  [(partNumberKV, intToStr info.number), (oidKV, encodeOid info.oid),
   (sizeKV, intToStr info.size), (createdKV, intToStr info.created), (etagKV, info.etag)]

/-- The search loop of `AddPart`: the first decodable part child whose
number matches, returned as (node id, old OID); children failing to decode
and the root itself are skipped. -/
def findFoundPart (rootId : Nat) (num : Int) : List TreeStNode → Option (Nat × Nat)
  | [] => none
  | part :: rest =>
    if part.id = rootId then findFoundPart rootId num rest
    else
      match newPartInfo part with
      | none => findFoundPart rootId num rest
      | some partInfo =>
        if partInfo.number = num then some (part.id, partInfo.oid)
        else findFoundPart rootId num rest

/-- Source `AddPart` (tree.go): fetch the depth-1 subtree of the multipart
root, search for an existing part with the same number (`foundPartID`
stays 0 when none matches), then branch on
`foundPartID != multipartNodeID`: add a fresh node and return the sentinel
`ErrNoNodeToRemove`, or move the found node and return the old OID. -/
def addPart (s : TreeState) (multipartNodeID : Nat) (info : PartInfoM) :
    Except TreeErr Nat × TreeState :=
  let parts := svcSubTree1 s multipartNodeID
  let meta := partMeta info
  let found := findFoundPart multipartNodeID info.number parts
  let foundPartID := (found.map Prod.fst).getD 0
  let oldObjIDToDelete := (found.map Prod.snd).getD 0
  if foundPartID ≠ multipartNodeID then
    (Except.error TreeErr.noNodeToRemove, (svcAdd s multipartNodeID meta).2)
  else
    (Except.ok oldObjIDToDelete, svcMove s foundPartID multipartNodeID meta)

instance : DecidableEq (Except TreeErr Nat) := fun x y =>
  match x, y with
  | .ok a, .ok b => decidable_of_iff (a = b) (by simp)
  | .error a, .error b => decidable_of_iff (a = b) (by simp)
  | .ok _, .error _ => isFalse (by simp)
  | .error _, .ok _ => isFalse (by simp)

/-- C1: evaluation of `AddPart` at the claim's scenario.  On an upload root
(node 1) holding no parts, `AddPart(1, oidA)` adds a part node and returns
the sentinel; the second call `AddPart(1, oidB)` finds the existing part
(so `foundPartID` is its node id, which differs from the root id), yet the
source's `foundPartID != multipartNodeID` test sends it down the **add**
branch again: it returns the sentinel instead of `oidA` and leaves two
children with `Number = 1`.  The move branch is unreachable, contradicting
the claim and the spec. -/
theorem addPart_duplicate_number_eval :
    ((addPart ⟨[⟨1, 0, [(fileNameKV, strOf "obj"), (uploadIDKV, strOf "u1")]⟩], 2⟩ 1
        ⟨1, 7, 5, [], 0⟩).1 = Except.error TreeErr.noNodeToRemove) ∧
    ((addPart ((addPart ⟨[⟨1, 0, [(fileNameKV, strOf "obj"), (uploadIDKV, strOf "u1")]⟩], 2⟩ 1
        ⟨1, 7, 5, [], 0⟩).2) 1 ⟨1, 9, 5, [], 0⟩).1 = Except.error TreeErr.noNodeToRemove) ∧
    (((addPart ((addPart ⟨[⟨1, 0, [(fileNameKV, strOf "obj"), (uploadIDKV, strOf "u1")]⟩], 2⟩ 1
        ⟨1, 7, 5, [], 0⟩).2) 1 ⟨1, 9, 5, [], 0⟩).2.nodes.filter fun n =>
          n.parent == 1 && (n.meta.lookup partNumberKV == some (intToStr 1))).length = 2) := by
  decide

/-! ### VersionStore: `addVersion`, `getVersions`, `getUnversioned` over
the state model (source tree.go) -/

/-- The metadata map `addVersion` builds (the Go map modelled as a
key/value list): `OID` and `FileName` always, `Size` when positive, `ETag`
when nonempty, the delete-marker triple when present, and the
`IsUnversioned` flag. -/
def versionMeta (version : NodeVersionM) (path : List Str) : List (Str × Str) :=
  [(oidKV, encodeOid version.oid), (fileNameKV, path.getLastD [])] ++
    (if 0 < version.size then [(sizeKV, intToStr version.size)] else []) ++
    (if version.etag ≠ [] then [(etagKV, version.etag)] else []) ++
    (match version.deleteMarker with
     | some dm => [(isDeleteMarkerKV, strOf "true"), (ownerKV, dm.owner),
                   (createdKV, intToStr dm.created)]
     | none => []) ++
    (if version.isUnversioned then [(isUnversionedKV, strOf "true")] else [])

/-- Source `getVersions` against the state model: the backend path lookup
returns the nodes at the parsed path (transport errors do not arise in the
model). -/
def getVersionsState (s : TreeState) (filepath : Str) (onlyUnversioned : Bool) :
    Except TreeErr (List NodeVersionM) :=
  getVersionsFromNodes (.ok ((svcGetByPath s (pathFromName filepath)).map toNodeResp))
    filepath onlyUnversioned

/-- Source `getUnversioned`: more than one unversioned node is a
multiplicity error, none is the not-found sentinel. -/
def getUnversionedState (s : TreeState) (filepath : Str) : Except TreeErr NodeVersionM :=
  match getVersionsState s filepath true with
  | .error e => .error e
  | .ok nodes =>
    if 1 < nodes.length then
      .error (TreeErr.other (strOf "found more than one unversioned node"))
    else
      match nodes with
      | [node] => .ok node
      | _ => .error TreeErr.nodeNotFound

/-- Source `addVersion` (tree.go): for an unversioned version, locate the
existing slot, learn its parent with a depth-0 subtree read and move it in
place with the new metadata; when no slot exists (or in versioned mode),
add by path at `path[:len(path)-1]`. -/
def addVersionState (s : TreeState) (version : NodeVersionM) :
    Except TreeErr Unit × TreeState :=
  let path := pathFromName version.filePath
  let meta := versionMeta version path
  if version.isUnversioned then
    match getUnversionedState s version.filePath with
    | .ok node =>
      match getParentOf s node.id with
      | some parentID => (.ok (), svcMove s node.id parentID meta)
      | none => (.error (TreeErr.other (strOf "no parent")), s)
    | .error e =>
      if e = TreeErr.nodeNotFound then (.ok (), (svcAddByPath s path.dropLast meta).2)
      else (.error e, s)
  else (.ok (), (svcAddByPath s path.dropLast meta).2)

/-- Sequential `AddVersion` calls, final state. -/
def addVersions (s : TreeState) : List NodeVersionM → TreeState
  | [] => s
  | v :: rest => addVersions (addVersionState s v).2 rest

/-- Whether every call in a sequential run of `AddVersion` succeeds. -/
def addVersionsOk (s : TreeState) : List NodeVersionM → Bool
  | [] => true
  | v :: rest =>
    match addVersionState s v with
    | (.ok _, s') => addVersionsOk s' rest
    | _ => false

/-- The version nodes at a path: the nodes carrying the `OID` key (the
spec's role rule for object versions). -/
def versionNodesAt (s : TreeState) (path : List Str) : List TreeStNode :=
  (svcGetByPath s path).filter fun n => (n.meta.lookup oidKV).isSome

/-! ### Resolution lemmas for the state model -/

theorem eq_nil_or_snoc (l : List Str) : l = [] ∨ ∃ l' a, l = l' ++ [a] := by
  rcases List.eq_nil_or_concat l with h | ⟨L, b, h⟩
  · exact Or.inl h
  · exact Or.inr ⟨L, b, by simpa [List.concat_eq_append] using h⟩

theorem resolve_nil (s : TreeState) : resolvePath s [] = [0] := rfl

theorem resolve_snoc (s : TreeState) (q : List Str) (a : Str) :
    resolvePath s (q ++ [a]) = levelIds s (resolvePath s q) a := by
  rw [resolvePath, List.foldl_append]
  rfl

theorem mem_levelIds (s : TreeState) (ids : List Nat) (seg : Str) (j : Nat) :
    j ∈ levelIds s ids seg ↔
      ∃ n ∈ s.nodes, n.id = j ∧ n.parent ∈ ids ∧ nodeFileName n = some seg := by
  simp only [levelIds, List.mem_map, List.mem_filter, Bool.and_eq_true, beq_iff_eq,
    decide_eq_true_eq]
  constructor
  · rintro ⟨n, ⟨hn, hp, hf⟩, rfl⟩
    exact ⟨n, hn, rfl, hp, hf⟩
  · rintro ⟨n, hn, rfl, hp, hf⟩
    exact ⟨n, ⟨hn, hp, hf⟩, rfl⟩

theorem mem_resolve_node (s : TreeState) (q : List Str) (a : Str) (j : Nat)
    (h : j ∈ resolvePath s (q ++ [a])) :
    ∃ n ∈ s.nodes, n.id = j ∧ n.parent ∈ resolvePath s q ∧ nodeFileName n = some a := by
  rw [resolve_snoc] at h
  exact (mem_levelIds s (resolvePath s q) a j).mp h

theorem zero_not_mem_resolve (s : TreeState) (hwf : WfState s) (q : List Str) (hq : q ≠ []) :
    0 ∉ resolvePath s q := by
  rcases eq_nil_or_snoc q with rfl | ⟨q₀, a, rfl⟩
  · exact absurd rfl hq
  · intro h
    obtain ⟨n, hn, hid, -, -⟩ := mem_resolve_node s q₀ a 0 h
    exact (hwf.2.2 n hn).1 hid

theorem node_eq_of_id_eq (s : TreeState) (hwf : WfState s) (n m : TreeStNode)
    (hn : n ∈ s.nodes) (hm : m ∈ s.nodes) (h : n.id = m.id) : n = m :=
  List.inj_on_of_nodup_map hwf.1 hn hm h

theorem resolve_unique_aux (s : TreeState) (hwf : WfState s) :
    ∀ (k : Nat) (q q' : List Str) (j : Nat), q.length ≤ k →
      (∃ n ∈ s.nodes, n.id = j) → j ∈ resolvePath s q → j ∈ resolvePath s q' → q = q' := by
  intro k
  induction k with
  | zero =>
    intro q q' j hlen hex hq hq'
    obtain rfl : q = [] := List.eq_nil_of_length_eq_zero (Nat.le_zero.mp hlen)
    obtain ⟨n, hn, rfl⟩ := hex
    rw [resolve_nil] at hq
    simp only [List.mem_singleton] at hq
    exact absurd hq (hwf.2.2 n hn).1
  | succ k ih =>
    intro q q' j hlen hex hq hq'
    rcases eq_nil_or_snoc q with rfl | ⟨q₀, a, rfl⟩
    · obtain ⟨n, hn, rfl⟩ := hex
      rw [resolve_nil] at hq
      simp only [List.mem_singleton] at hq
      exact absurd hq (hwf.2.2 n hn).1
    rcases eq_nil_or_snoc q' with rfl | ⟨q₀', a', rfl⟩
    · obtain ⟨n, hn, rfl⟩ := hex
      rw [resolve_nil] at hq'
      simp only [List.mem_singleton] at hq'
      exact absurd hq' (hwf.2.2 n hn).1
    obtain ⟨n, hn, hnid, hnp, hna⟩ := mem_resolve_node s q₀ a j hq
    obtain ⟨m, hm, hmid, hmp, hma⟩ := mem_resolve_node s q₀' a' j hq'
    obtain rfl : n = m := node_eq_of_id_eq s hwf n m hn hm (hnid.trans hmid.symm)
    have ha : a = a' := by
      rw [hna] at hma
      exact Option.some.inj hma
    have hlen₀ : q₀.length ≤ k := by
      rw [List.length_append] at hlen
      simpa using Nat.le_of_succ_le_succ (by simpa using hlen)
    by_cases hp0 : n.parent = 0
    · have h₀ : q₀ = [] := by
        by_contra hne
        exact zero_not_mem_resolve s hwf q₀ hne (hp0 ▸ hnp)
      have h₀' : q₀' = [] := by
        by_contra hne
        exact zero_not_mem_resolve s hwf q₀' hne (hp0 ▸ hmp)
      rw [h₀, h₀', ha]
    · have hex' : ∃ u ∈ s.nodes, u.id = n.parent := by
        rcases eq_nil_or_snoc q₀ with rfl | ⟨r, b, rfl⟩
        · rw [resolve_nil] at hnp
          simp only [List.mem_singleton] at hnp
          exact absurd hnp hp0
        · obtain ⟨u, hu, huid, -, -⟩ := mem_resolve_node s r b n.parent hnp
          exact ⟨u, hu, huid⟩
      rw [ih q₀ q₀' n.parent hlen₀ hex' hnp hmp, ha]

theorem resolve_unique (s : TreeState) (hwf : WfState s) (q q' : List Str) (j : Nat)
    (hex : ∃ n ∈ s.nodes, n.id = j) (hq : j ∈ resolvePath s q) (hq' : j ∈ resolvePath s q') :
    q = q' :=
  resolve_unique_aux s hwf q.length q q' j (Nat.le_refl _) hex hq hq'

/-! ### Extension and move invariance of resolution -/

theorem levelIds_ext (s s' : TreeState) (ext : List TreeStNode)
    (hs' : s'.nodes = s.nodes ++ ext) (hwf : WfState s)
    (hext : ∀ e ∈ ext, s.nextId ≤ e.id)
    (ids ids' : List Nat) (hids : ∀ i, i < s.nextId → (i ∈ ids' ↔ i ∈ ids)) (seg : Str)
    (j : Nat) (hj : j < s.nextId) :
    j ∈ levelIds s' ids' seg ↔ j ∈ levelIds s ids seg := by
  rw [mem_levelIds, mem_levelIds, hs']
  constructor
  · rintro ⟨n, hn, rfl, hp, hf⟩
    rcases List.mem_append.mp hn with hold | hnew
    · have hpar : n.parent < s.nextId := (hwf.2.2 n hold).2.2
      exact ⟨n, hold, rfl, (hids n.parent hpar).mp hp, hf⟩
    · exact absurd hj (by simpa using hext n hnew)
  · rintro ⟨n, hn, rfl, hp, hf⟩
    have hpar : n.parent < s.nextId := (hwf.2.2 n hn).2.2
    exact ⟨n, List.mem_append_left ext hn, rfl, (hids n.parent hpar).mpr hp, hf⟩

theorem resolve_ext (s s' : TreeState) (ext : List TreeStNode)
    (hs' : s'.nodes = s.nodes ++ ext) (hwf : WfState s)
    (hext : ∀ e ∈ ext, s.nextId ≤ e.id) (path : List Str) (j : Nat) (hj : j < s.nextId) :
    j ∈ resolvePath s' path ↔ j ∈ resolvePath s path := by
  suffices h : ∀ (p : List Str) (ids ids' : List Nat),
      (∀ i, i < s.nextId → (i ∈ ids' ↔ i ∈ ids)) →
      ∀ i, i < s.nextId →
        (i ∈ List.foldl (levelIds s') ids' p ↔ i ∈ List.foldl (levelIds s) ids p) from
    h path [0] [0] (fun _ _ => Iff.rfl) j hj
  intro p
  induction p with
  | nil => exact fun ids ids' hids i hi => hids i hi
  | cons seg rest ihp =>
    intro ids ids' hids i hi
    exact ihp (levelIds s ids seg) (levelIds s' ids' seg)
      (fun i hi => levelIds_ext s s' ext hs' hwf hext ids ids' hids seg i hi) i hi

theorem getByPath_ext (s s' : TreeState) (ext : List TreeStNode)
    (hs' : s'.nodes = s.nodes ++ ext) (hwf : WfState s)
    (hext : ∀ e ∈ ext, s.nextId ≤ e.id) (path : List Str) :
    svcGetByPath s' path = svcGetByPath s path ++
      ext.filter (fun n => decide (n.id ∈ resolvePath s' path)) := by
  rw [svcGetByPath, svcGetByPath, hs', List.filter_append]
  congr 1
  refine List.filter_congr fun n hn => ?_
  have hlt : n.id < s.nextId := (hwf.2.2 n hn).2.1
  exact decide_eq_decide.mpr (resolve_ext s s' ext hs' hwf hext path n.id hlt)

theorem wf_svcAdd (s : TreeState) (parent : Nat) (meta : List (Str × Str))
    (hwf : WfState s) (hpar : parent < s.nextId) : WfState (svcAdd s parent meta).2 := by
  obtain ⟨hnd, hpos, hb⟩ := hwf
  unfold WfState
  refine ⟨?_, show 0 < s.nextId + 1 from Nat.succ_pos _, ?_⟩
  · show ((s.nodes ++ [(⟨s.nextId, parent, meta⟩ : TreeStNode)]).map TreeStNode.id).Nodup
    rw [List.map_append]
    simp only [List.map_cons, List.map_nil]
    rw [List.nodup_append]
    refine ⟨hnd, List.nodup_singleton _, ?_⟩
    intro a ha hb'
    simp only [List.mem_singleton] at hb'
    subst hb'
    obtain ⟨n, hn, hni⟩ := List.mem_map.mp ha
    exact absurd (hni ▸ (hb n hn).2.1) (Nat.lt_irrefl _)
  · intro n hn
    rcases List.mem_append.mp hn with hold | hnew
    · obtain ⟨h1, h2, h3⟩ := hb n hold
      exact ⟨h1, Nat.lt_succ_of_lt h2, Nat.lt_succ_of_lt h3⟩
    · simp only [List.mem_singleton] at hnew
      subst hnew
      refine ⟨?_, ?_, ?_⟩
      · show s.nextId ≠ 0
        omega
      · show s.nextId < s.nextId + 1
        omega
      · show parent < s.nextId + 1
        omega

theorem svcMove_nodes_map (s : TreeState) (L P : Nat) (meta' : List (Str × Str)) :
    (svcMove s L P meta').nodes =
      s.nodes.map fun n => if n.id = L then ⟨n.id, P, meta'⟩ else n := rfl

theorem filter_id_unique (nodes : List TreeStNode) (hnd : (nodes.map TreeStNode.id).Nodup)
    (n : TreeStNode) (hn : n ∈ nodes) : nodes.filter (fun m => m.id == n.id) = [n] := by
  induction nodes with
  | nil => exact absurd hn (List.not_mem_nil n)
  | cons x rest ih =>
    rw [List.map_cons, List.nodup_cons] at hnd
    rcases List.mem_cons.mp hn with rfl | hmem
    · rw [List.filter_cons, if_pos (by simp)]
      rw [List.filter_eq_nil_iff.mpr]
      intro m hm
      simp only [beq_iff_eq]
      intro hid
      exact hnd.1 (hid ▸ List.mem_map.mpr ⟨m, hm, rfl⟩)
    · rw [List.filter_cons, if_neg, ih hnd.2 hmem]
      simp only [beq_iff_eq]
      intro hid
      exact hnd.1 (hid ▸ List.mem_map.mpr ⟨n, hmem, rfl⟩)

theorem levelIds_move (s : TreeState) (L P : Nat) (lm meta' : List (Str × Str))
    (hwf : WfState s) (hmem : (⟨L, P, lm⟩ : TreeStNode) ∈ s.nodes)
    (hname : List.lookup fileNameKV meta' = List.lookup fileNameKV lm)
    (ids : List Nat) (seg : Str) :
    levelIds (svcMove s L P meta') ids seg = levelIds s ids seg := by
  rw [levelIds, levelIds, svcMove_nodes_map, List.filter_map, List.map_map]
  have hfil : s.nodes.filter ((fun n =>
      decide (n.parent ∈ ids) && nodeFileName n == some seg) ∘
        fun n => if n.id = L then (⟨n.id, P, meta'⟩ : TreeStNode) else n) =
      s.nodes.filter fun n => decide (n.parent ∈ ids) && nodeFileName n == some seg := by
    refine List.filter_congr fun n hn => ?_
    by_cases hid : n.id = L
    · obtain rfl : n = ⟨L, P, lm⟩ := node_eq_of_id_eq s hwf n ⟨L, P, lm⟩ hn hmem hid
      simp only [Function.comp, hid, if_pos rfl]
      show (decide (P ∈ ids) && nodeFileName ⟨L, P, meta'⟩ == some seg) =
        (decide (P ∈ ids) && nodeFileName ⟨L, P, lm⟩ == some seg)
      rw [show nodeFileName ⟨L, P, meta'⟩ = nodeFileName ⟨L, P, lm⟩ from hname]
    · simp [Function.comp, hid]
  rw [hfil]
  refine List.map_congr_left fun n hn => ?_
  by_cases hid : n.id = L <;> simp [hid]

theorem resolve_move (s : TreeState) (L P : Nat) (lm meta' : List (Str × Str))
    (hwf : WfState s) (hmem : (⟨L, P, lm⟩ : TreeStNode) ∈ s.nodes)
    (hname : List.lookup fileNameKV meta' = List.lookup fileNameKV lm) (path : List Str) :
    resolvePath (svcMove s L P meta') path = resolvePath s path := by
  rw [resolvePath, resolvePath]
  suffices h : ∀ (p : List Str) (ids : List Nat),
      List.foldl (levelIds (svcMove s L P meta')) ids p = List.foldl (levelIds s) ids p from
    h path [0]
  intro p
  induction p with
  | nil => intro ids; rfl
  | cons seg rest ihp =>
    intro ids
    rw [List.foldl_cons, List.foldl_cons, levelIds_move s L P lm meta' hwf hmem hname ids seg,
      ihp]

theorem getByPath_move (s : TreeState) (L P : Nat) (lm meta' : List (Str × Str))
    (hwf : WfState s) (hmem : (⟨L, P, lm⟩ : TreeStNode) ∈ s.nodes)
    (hname : List.lookup fileNameKV meta' = List.lookup fileNameKV lm) (path : List Str) :
    svcGetByPath (svcMove s L P meta') path =
      (svcGetByPath s path).map fun n => if n.id = L then ⟨n.id, P, meta'⟩ else n := by
  rw [svcGetByPath, svcGetByPath, resolve_move s L P lm meta' hwf hmem hname path,
    svcMove_nodes_map, List.filter_map]
  congr 1
  refine List.filter_congr fun n hn => ?_
  by_cases hid : n.id = L <;> simp [Function.comp, hid]

theorem wf_move (s : TreeState) (L P : Nat) (meta' : List (Str × Str))
    (hwf : WfState s) (hP : P < s.nextId) : WfState (svcMove s L P meta') := by
  obtain ⟨hnd, hpos, hb⟩ := hwf
  unfold WfState
  refine ⟨?_, hpos, ?_⟩
  · rw [svcMove_nodes_map, List.map_map]
    have heq : (TreeStNode.id ∘ fun n =>
        if n.id = L then (⟨n.id, P, meta'⟩ : TreeStNode) else n) = TreeStNode.id := by
      funext n
      by_cases h : n.id = L <;> simp [Function.comp, h]
    rw [heq]
    exact hnd
  · intro n hn
    rw [svcMove_nodes_map] at hn
    obtain ⟨m, hm, rfl⟩ := List.mem_map.mp hn
    obtain ⟨h1, h2, h3⟩ := hb m hm
    by_cases h : m.id = L
    · rw [if_pos h]
      exact ⟨h1, h2, hP⟩
    · rw [if_neg h]
      exact ⟨h1, h2, h3⟩

/-! ### The AddByPath walk -/

theorem childWithName_spec (s : TreeState) (pid : Nat) (seg : Str) (n : TreeStNode)
    (h : childWithName s pid seg = some n) :
    n ∈ s.nodes ∧ n.parent = pid ∧ nodeFileName n = some seg := by
  rw [childWithName] at h
  have hmem : n ∈ s.nodes.filter fun m => m.parent == pid && nodeFileName m == some seg :=
    List.mem_of_mem_head? (by rw [h]; rfl)
  obtain ⟨hn, hcond⟩ := List.mem_filter.mp hmem
  simp only [Bool.and_eq_true, beq_iff_eq] at hcond
  exact ⟨hn, hcond.1, hcond.2⟩

theorem walk_spec (meta : List (Str × Str)) :
    ∀ (segs : List Str) (s : TreeState) (cur : Nat), WfState s → cur < s.nextId →
      ∃ ext cf,
        ((svcAddByPathGo meta s cur segs).2.nodes =
          s.nodes ++ ext ++ [(⟨(svcAddByPathGo meta s cur segs).1, cf, meta⟩ : TreeStNode)]) ∧
        WfState (svcAddByPathGo meta s cur segs).2 ∧
        s.nextId ≤ (svcAddByPathGo meta s cur segs).1 ∧
        (∀ e ∈ ext, s.nextId ≤ e.id) ∧
        (∀ ids, cur ∈ ids →
          cf ∈ List.foldl (levelIds (svcAddByPathGo meta s cur segs).2) ids segs ∧
          ∀ e ∈ ext, ∃ i, i < segs.length ∧
            e.id ∈ List.foldl (levelIds (svcAddByPathGo meta s cur segs).2) ids
              (segs.take (i + 1))) := by
  intro segs
  induction segs with
  | nil =>
    intro s cur hwf hcur
    refine ⟨[], cur, ?_, wf_svcAdd s cur meta hwf hcur, Nat.le_refl _, ?_, ?_⟩
    · show (s.nodes ++ [(⟨s.nextId, cur, meta⟩ : TreeStNode)]) =
        s.nodes ++ [] ++ [(⟨s.nextId, cur, meta⟩ : TreeStNode)]
      simp
    · intro e he
      exact absurd he (List.not_mem_nil e)
    · intro ids hcurids
      exact ⟨hcurids, fun e he => absurd he (List.not_mem_nil e)⟩
  | cons seg rest ih =>
    intro s cur hwf hcur
    cases hchild : childWithName s cur seg with
    | some n =>
      obtain ⟨hnmem, hnpar, hnname⟩ := childWithName_spec s cur seg n hchild
      have hnlt : n.id < s.nextId := (hwf.2.2 n hnmem).2.1
      have heq : svcAddByPathGo meta s cur (seg :: rest) = svcAddByPathGo meta s n.id rest := by
        simp only [svcAddByPathGo, hchild]
      rw [heq]
      obtain ⟨ext, cf, h1, h2, h3, h4, h5⟩ := ih s n.id hwf hnlt
      refine ⟨ext, cf, h1, h2, h3, h4, ?_⟩
      intro ids hcurids
      have hnin : n.id ∈ levelIds (svcAddByPathGo meta s n.id rest).2 ids seg := by
        rw [mem_levelIds]
        refine ⟨n, ?_, rfl, hnpar ▸ hcurids, hnname⟩
        rw [h1]
        exact List.mem_append_left _ (List.mem_append_left _ hnmem)
      obtain ⟨hcf, hext⟩ := h5 (levelIds (svcAddByPathGo meta s n.id rest).2 ids seg) hnin
      refine ⟨hcf, ?_⟩
      intro e he
      obtain ⟨i, hi, hmem⟩ := hext e he
      exact ⟨i + 1, by simpa using Nat.succ_lt_succ hi, hmem⟩
    | none =>
      have heq : svcAddByPathGo meta s cur (seg :: rest) =
          svcAddByPathGo meta (svcAdd s cur [(fileNameKV, seg)]).2
            (svcAdd s cur [(fileNameKV, seg)]).1 rest := by
        simp only [svcAddByPathGo, hchild]
      rw [heq]
      have hwf1 : WfState (svcAdd s cur [(fileNameKV, seg)]).2 :=
        wf_svcAdd s cur [(fileNameKV, seg)] hwf hcur
      have hlt1 : (svcAdd s cur [(fileNameKV, seg)]).1 < (svcAdd s cur [(fileNameKV, seg)]).2.nextId :=
        Nat.lt_succ_self _
      obtain ⟨ext', cf, h1, h2, h3, h4, h5⟩ :=
        ih (svcAdd s cur [(fileNameKV, seg)]).2 (svcAdd s cur [(fileNameKV, seg)]).1 hwf1 hlt1
      refine ⟨(⟨s.nextId, cur, [(fileNameKV, seg)]⟩ : TreeStNode) :: ext', cf, ?_, h2, ?_, ?_, ?_⟩
      · rw [h1]
        show (s.nodes ++ [(⟨s.nextId, cur, [(fileNameKV, seg)]⟩ : TreeStNode)]) ++ ext' ++ _ = _
        simp
      · exact Nat.le_of_succ_le h3
      · intro e he
        rcases List.mem_cons.mp he with rfl | hmem
        · exact Nat.le_refl _
        · exact Nat.le_of_succ_le (h4 e hmem)
      · intro ids hcurids
        have hein : s.nextId ∈
            levelIds (svcAddByPathGo meta (svcAdd s cur [(fileNameKV, seg)]).2
              (svcAdd s cur [(fileNameKV, seg)]).1 rest).2 ids seg := by
          rw [mem_levelIds]
          refine ⟨⟨s.nextId, cur, [(fileNameKV, seg)]⟩, ?_, rfl, hcurids, ?_⟩
          · rw [h1]
            refine List.mem_append_left _ (List.mem_append_left _ ?_)
            exact List.mem_append_right _ (List.mem_singleton.mpr rfl)
          · simp [nodeFileName]
        obtain ⟨hcf, hext⟩ := h5 _ hein
        refine ⟨hcf, ?_⟩
        intro e he
        rcases List.mem_cons.mp he with rfl | hmem
        · exact ⟨0, Nat.succ_pos _, hein⟩
        · obtain ⟨i, hi, hmemi⟩ := hext e hmem
          exact ⟨i + 1, by simpa using Nat.succ_lt_succ hi, hmemi⟩

/-! ### Decoding lemmas for version nodes -/

theorem lookup_mem_str (l : List (Str × Str)) (k v : Str) (h : l.lookup k = some v) :
    (k, v) ∈ l := by
  induction l with
  | nil => simp [List.lookup] at h
  | cons a rest ih =>
    rw [List.lookup] at h
    cases hk : k == a.fst with
    | true =>
      rw [hk] at h
      have : a = (k, v) := by
        obtain ⟨a1, a2⟩ := a
        simp only [beq_iff_eq] at hk
        simp only [Option.some.injEq] at h
        simp [hk, h]
      simp [this]
    | false =>
      rw [hk] at h
      exact List.mem_cons_of_mem _ (ih h)

theorem step_other (t : TreeNodeM) (k v : Str) (h1 : k ≠ oidKV) (h2 : k ≠ sizeKV) :
    newTreeNodeStep (some t) (k, v) = some { t with meta := metaInsert t.meta k v } := by
  simp [newTreeNodeStep, h1, h2]

theorem step_oid (t : TreeNodeM) (o : Nat) :
    newTreeNodeStep (some t) (oidKV, encodeOid o) = some { t with objID := o } := by
  simp [newTreeNodeStep, decodeOid, encodeOid, parseNat_natToStr]

theorem step_size (t : TreeNodeM) (z : Int) (hlo : -(int64Bound : Int) ≤ z)
    (hhi : z < int64Bound) :
    newTreeNodeStep (some t) (sizeKV, intToStr z) = some { t with size := z } := by
  have hso : sizeKV ≠ oidKV := by decide
  have hlen : (intToStr z).length > 0 := List.length_pos.mpr (intToStr_ne_nil z)
  simp [newTreeNodeStep, hso, hlen, parseInt64_intToStr z hlo hhi]

theorem fold_others (l : List (Str × Str)) :
    ∀ t : TreeNodeM, (∀ kv ∈ l, kv.1 ≠ oidKV ∧ kv.1 ≠ sizeKV) →
      ∃ t', l.foldl newTreeNodeStep (some t) = some t' ∧ t'.id = t.id := by
  induction l with
  | nil => exact fun t _ => ⟨t, rfl, rfl⟩
  | cons kv rest ih =>
    intro t h
    obtain ⟨h1, h2⟩ := h kv (List.mem_cons_self kv rest)
    rw [List.foldl_cons, show newTreeNodeStep (some t) kv =
      some { t with meta := metaInsert t.meta kv.1 kv.2 } from by
        obtain ⟨k, v⟩ := kv
        exact step_other t k v h1 h2]
    obtain ⟨t', ht', hid⟩ := ih _ fun kv hkv => h kv (List.mem_cons_of_mem _ hkv)
    exact ⟨t', ht', hid⟩

theorem step_meta_sub (t t₁ : TreeNodeM) (k v : Str)
    (h : newTreeNodeStep (some t) (k, v) = some t₁) (kv : Str × Str) (hkv : kv ∈ t₁.meta) :
    kv ∈ t.meta ∨ kv = (k, v) := by
  rw [newTreeNodeStep] at h
  simp only [Option.some_bind] at h
  by_cases h1 : k = oidKV
  · rw [if_pos h1] at h
    obtain ⟨o, -, rfl⟩ := Option.map_eq_some'.mp h
    exact Or.inl hkv
  · rw [if_neg h1] at h
    by_cases h2 : k = sizeKV
    · rw [if_pos h2] at h
      by_cases h3 : v.length > 0
      · rw [if_pos h3] at h
        obtain ⟨z, -, rfl⟩ := Option.map_eq_some'.mp h
        exact Or.inl hkv
      · rw [if_neg h3] at h
        obtain rfl := Option.some.inj h
        exact Or.inl hkv
    · rw [if_neg h2] at h
      obtain rfl := Option.some.inj h
      simp only [metaInsert, List.mem_cons] at hkv
      rcases hkv with rfl | hkv
      · exact Or.inr rfl
      · exact Or.inl (List.mem_of_mem_filter hkv)

theorem foldl_meta_sub (l : List (Str × Str)) :
    ∀ (t t' : TreeNodeM), l.foldl newTreeNodeStep (some t) = some t' →
      ∀ kv, kv ∈ t'.meta → kv ∈ t.meta ∨ kv ∈ l := by
  induction l with
  | nil =>
    intro t t' h kv hkv
    obtain rfl := Option.some.inj h
    exact Or.inl hkv
  | cons x rest ih =>
    intro t t' h kv hkv
    rw [List.foldl_cons] at h
    cases hstep : newTreeNodeStep (some t) x with
    | none =>
      rw [hstep, foldl_newTreeNodeStep_none] at h
      exact absurd h (by simp)
    | some t₁ =>
      rw [hstep] at h
      rcases ih t₁ t' h kv hkv with h₁ | h₁
      · obtain ⟨xk, xv⟩ := x
        rcases step_meta_sub t t₁ xk xv hstep kv h₁ with h₂ | h₂
        · exact Or.inl h₂
        · exact Or.inr (h₂ ▸ List.mem_cons_self _ _)
      · exact Or.inr (List.mem_cons_of_mem _ h₁)

theorem decode_flag_none (nd : NodeResp) (t : TreeNodeM) (h : newTreeNode nd = some t)
    (habs : nd.meta.lookup isUnversionedKV = none) :
    metaGet t isUnversionedKV = none := by
  cases hm : metaGet t isUnversionedKV with
  | none => rfl
  | some v =>
    exfalso
    have hmem : (isUnversionedKV, v) ∈ t.meta := lookup_mem_str t.meta _ v hm
    have hin : (isUnversionedKV, v) ∈ nd.meta := by
      rcases foldl_meta_sub nd.meta _ t h _ hmem with h0 | h0
      · exact absurd h0 (List.not_mem_nil _)
      · exact h0
    simp at habs
    exact habs _ _ hin rfl

theorem fold_exists_chain (l₁ l₂ : List (Str × Str))
    (h₁ : ∀ t : TreeNodeM, ∃ t', l₁.foldl newTreeNodeStep (some t) = some t' ∧ t'.id = t.id)
    (h₂ : ∀ t : TreeNodeM, ∃ t', l₂.foldl newTreeNodeStep (some t) = some t' ∧ t'.id = t.id) :
    ∀ t : TreeNodeM, ∃ t', (l₁ ++ l₂).foldl newTreeNodeStep (some t) = some t' ∧
      t'.id = t.id := by
  intro t
  obtain ⟨t₁, h₁e, h₁id⟩ := h₁ t
  obtain ⟨t₂, h₂e, h₂id⟩ := h₂ t₁
  exact ⟨t₂, by rw [List.foldl_append, h₁e, h₂e], by rw [h₂id, h₁id]⟩

theorem leaf_fold (v : NodeVersionM) (path : List Str)
    (hunv : v.isUnversioned = true)
    (hlo : -(int64Bound : Int) ≤ v.size) (hhi : v.size < int64Bound) (t₀ : TreeNodeM) :
    ∃ t, (versionMeta v path).foldl newTreeNodeStep (some t₀) = some t ∧ t.id = t₀.id ∧
      metaGet t isUnversionedKV = some (strOf "true") := by
  have hm : versionMeta v path =
      ([(oidKV, encodeOid v.oid), (fileNameKV, path.getLastD [])] ++
        (if 0 < v.size then [(sizeKV, intToStr v.size)] else []) ++
        (if v.etag ≠ [] then [(etagKV, v.etag)] else []) ++
        (match v.deleteMarker with
         | some dm => [(isDeleteMarkerKV, strOf "true"), (ownerKV, dm.owner),
                       (createdKV, intToStr dm.created)]
         | none => [])) ++ [(isUnversionedKV, strOf "true")] := by
    rw [versionMeta, hunv]
    simp
  have segA : ∀ t : TreeNodeM, ∃ t', List.foldl newTreeNodeStep (some t)
      [(oidKV, encodeOid v.oid), (fileNameKV, path.getLastD [])] = some t' ∧ t'.id = t.id := by
    intro t
    rw [List.foldl_cons, step_oid, List.foldl_cons,
      step_other _ _ _ (by decide) (by decide), List.foldl_nil]
    exact ⟨_, rfl, rfl⟩
  have segB : ∀ t : TreeNodeM, ∃ t', List.foldl newTreeNodeStep (some t)
      (if 0 < v.size then [(sizeKV, intToStr v.size)] else []) = some t' ∧ t'.id = t.id := by
    intro t
    by_cases h : 0 < v.size
    · rw [if_pos h, List.foldl_cons, step_size _ _ hlo hhi, List.foldl_nil]
      exact ⟨_, rfl, rfl⟩
    · rw [if_neg h, List.foldl_nil]
      exact ⟨_, rfl, rfl⟩
  have segC : ∀ t : TreeNodeM, ∃ t', List.foldl newTreeNodeStep (some t)
      (if v.etag ≠ [] then [(etagKV, v.etag)] else []) = some t' ∧ t'.id = t.id := by
    intro t
    by_cases h : v.etag ≠ []
    · rw [if_pos h]
      exact fold_others _ t fun kv hkv => by
        simp only [List.mem_singleton] at hkv
        subst hkv
        exact ⟨by show etagKV ≠ oidKV; decide, by show etagKV ≠ sizeKV; decide⟩
    · rw [if_neg h, List.foldl_nil]
      exact ⟨_, rfl, rfl⟩
  have segD : ∀ t : TreeNodeM, ∃ t', List.foldl newTreeNodeStep (some t)
      (match v.deleteMarker with
       | some dm => [(isDeleteMarkerKV, strOf "true"), (ownerKV, dm.owner),
                     (createdKV, intToStr dm.created)]
       | none => []) = some t' ∧ t'.id = t.id := by
    intro t
    cases v.deleteMarker with
    | none => exact ⟨t, rfl, rfl⟩
    | some dm =>
      exact fold_others _ t fun kv hkv => by
        simp only [List.mem_cons, List.not_mem_nil, or_false] at hkv
        rcases hkv with rfl | rfl | rfl
        · exact ⟨by decide, by decide⟩
        · exact ⟨by show ownerKV ≠ oidKV; decide, by show ownerKV ≠ sizeKV; decide⟩
        · exact ⟨by show createdKV ≠ oidKV; decide, by show createdKV ≠ sizeKV; decide⟩
  have hpre := fold_exists_chain _ _ (fold_exists_chain _ _
    (fold_exists_chain _ _ segA segB) segC) segD
  obtain ⟨tP, hP, hPid⟩ := hpre t₀
  rw [hm, List.foldl_append, hP, List.foldl_cons,
    step_other _ _ _ (by decide) (by decide), List.foldl_nil]
  refine ⟨_, rfl, hPid, ?_⟩
  show List.lookup isUnversionedKV
    (metaInsert tP.meta isUnversionedKV (strOf "true")) = some (strOf "true")
  rw [metaInsert, List.lookup]
  simp

theorem leaf_decode (L P : Nat) (v : NodeVersionM) (path : List Str)
    (hunv : v.isUnversioned = true)
    (hlo : -(int64Bound : Int) ≤ v.size) (hhi : v.size < int64Bound) :
    ∃ t, newTreeNode (toNodeResp ⟨L, P, versionMeta v path⟩) = some t ∧ t.id = L ∧
      metaGet t isUnversionedKV = some (strOf "true") := by
  obtain ⟨t, ht, hid, hflag⟩ := leaf_fold v path hunv hlo hhi ⟨L, 0, 0, 0, []⟩
  exact ⟨t, ht, hid, hflag⟩

theorem decodeVersions_flags (fp : Str) (l : List NodeResp)
    (h : ∀ nd ∈ l, (newTreeNode nd).isSome = true ∧ nd.meta.lookup isUnversionedKV = none) :
    ∃ vsOld, decodeVersions fp l = some vsOld ∧ ∀ x ∈ vsOld, x.isUnversioned = false := by
  induction l with
  | nil => exact ⟨[], rfl, fun x hx => absurd hx (List.not_mem_nil x)⟩
  | cons nd rest ih =>
    obtain ⟨hsome, habs⟩ := h nd (List.mem_cons_self nd rest)
    obtain ⟨t, ht⟩ := Option.isSome_iff_exists.mp hsome
    obtain ⟨vsOld, hvs, hflags⟩ := ih fun x hx => h x (List.mem_cons_of_mem _ hx)
    refine ⟨newNodeVersionFromTreeNode fp t :: vsOld, ?_, ?_⟩
    · simp only [decodeVersions, newNodeVersion, ht, Option.map_some', hvs]
    · intro x hx
      rcases List.mem_cons.mp hx with rfl | hx
      · show (metaGet t isUnversionedKV).isSome = false
        rw [decode_flag_none nd t ht habs]
        rfl
      · exact hflags x hx

theorem decodeVersions_append (fp : Str) (l₁ l₂ : List NodeResp) (r₁ r₂ : List NodeVersionM)
    (h₁ : decodeVersions fp l₁ = some r₁) (h₂ : decodeVersions fp l₂ = some r₂) :
    decodeVersions fp (l₁ ++ l₂) = some (r₁ ++ r₂) := by
  induction l₁ generalizing r₁ with
  | nil =>
    obtain rfl := Option.some.inj h₁
    simpa using h₂
  | cons nd rest ih =>
    rw [decodeVersions] at h₁
    cases hnv : newNodeVersion fp nd with
    | none => rw [hnv] at h₁; exact absurd h₁ (by simp)
    | some v =>
      rw [hnv] at h₁
      obtain ⟨r₁', hr₁', rfl⟩ := Option.map_eq_some'.mp h₁
      rw [List.cons_append, decodeVersions, hnv, ih r₁' hr₁']
      rfl

/-! ### The unversioned slot (source `addVersion`, `getUnversioned`) -/

theorem lookup_cons_ne (k a v : Str) (l : List (Str × Str)) (h : (k == a) = false) :
    List.lookup k ((a, v) :: l) = List.lookup k l := by
  rw [List.lookup, h]

theorem lookup_cons_eq (k v : Str) (l : List (Str × Str)) :
    List.lookup k ((k, v) :: l) = some v := by
  rw [List.lookup, show (k == k) = true from by simp]

theorem versionMeta_shape (v : NodeVersionM) (path : List Str) :
    versionMeta v path = (oidKV, encodeOid v.oid) :: (fileNameKV, path.getLastD []) ::
      ((if 0 < v.size then [(sizeKV, intToStr v.size)] else []) ++
        (if v.etag ≠ [] then [(etagKV, v.etag)] else []) ++
        (match v.deleteMarker with
         | some dm => [(isDeleteMarkerKV, strOf "true"), (ownerKV, dm.owner),
                       (createdKV, intToStr dm.created)]
         | none => []) ++
        (if v.isUnversioned then [(isUnversionedKV, strOf "true")] else [])) := by
  rw [versionMeta]
  simp [List.append_assoc]

theorem versionMeta_fileName (v : NodeVersionM) (path : List Str) :
    List.lookup fileNameKV (versionMeta v path) = some (path.getLastD []) := by
  rw [versionMeta_shape, lookup_cons_ne _ _ _ _ (by decide), lookup_cons_eq]

theorem versionMeta_oid (v : NodeVersionM) (path : List Str) :
    List.lookup oidKV (versionMeta v path) = some (encodeOid v.oid) := by
  rw [versionMeta_shape, lookup_cons_eq]

theorem resolve_mem_lt (s : TreeState) (hwf : WfState s) (q : List Str) (j : Nat)
    (h : j ∈ resolvePath s q) : j < s.nextId := by
  rcases eq_nil_or_snoc q with rfl | ⟨q₀, a, rfl⟩
  · rw [resolve_nil] at h
    simp only [List.mem_singleton] at h
    subst h
    exact hwf.2.1
  · obtain ⟨n, hn, hid, -, -⟩ := mem_resolve_node s q₀ a j h
    exact hid ▸ (hwf.2.2 n hn).2.1

theorem pathFromName_ne_nil (name : Str) : pathFromName name ≠ [] := by
  rw [pathFromName]
  cases hs : name.splitOn separator with
  | nil =>
    exact absurd hs (by rw [List.splitOn]; exact List.splitOnP_ne_nil _ name)
  | cons x xs =>
    rw [replaceHead]
    cases xs with
    | nil => simp [replaceLast]
    | cons y ys => simp [replaceLast]

theorem path_eq_dropLast_last (p : List Str) (h : p ≠ []) :
    p.dropLast ++ [p.getLastD []] = p := by
  rcases eq_nil_or_snoc p with rfl | ⟨q, a, rfl⟩
  · exact absurd rfl h
  · rw [List.dropLast_concat]
    simp

/-- The slot invariant maintained by unversioned `AddVersion` calls: the
state stays well-formed, the slot node id `L` is fresh relative to the
start state, its parent `P` is a valid node reference, and the nodes the
backend resolves at the path are exactly the initial ones followed by the
single slot node carrying the metadata of the last written version. -/
def SlotInv (s₀ s : TreeState) (path : List Str) (L P : Nat) (w : NodeVersionM) : Prop :=
  WfState s ∧ s₀.nextId ≤ L ∧ P < s.nextId ∧
    svcGetByPath s path = svcGetByPath s₀ path ++ [⟨L, P, versionMeta w path⟩]

theorem slot_post (s₀ s₁ : TreeState) (path : List Str) (L cf : Nat)
    (meta : List (Str × Str)) (hp : path ≠ [])
    (hfn : List.lookup fileNameKV meta = some (path.getLastD []))
    (ext : List TreeStNode)
    (h1 : s₁.nodes = s₀.nodes ++ ext ++ [⟨L, cf, meta⟩])
    (hwf : WfState s₀) (h2 : WfState s₁) (h3 : s₀.nextId ≤ L)
    (h4 : ∀ e ∈ ext, s₀.nextId ≤ e.id)
    (hcf : cf ∈ resolvePath s₁ path.dropLast)
    (hext5 : ∀ e ∈ ext, ∃ i, i < path.dropLast.length ∧
      e.id ∈ resolvePath s₁ (path.dropLast.take (i + 1))) :
    svcGetByPath s₁ path = svcGetByPath s₀ path ++ [⟨L, cf, meta⟩] := by
  have hext' : ∀ e ∈ ext ++ [(⟨L, cf, meta⟩ : TreeStNode)], s₀.nextId ≤ e.id := by
    intro e he
    rcases List.mem_append.mp he with hm | hm
    · exact h4 e hm
    · simp only [List.mem_singleton] at hm
      subst hm
      exact h3
  have hgb := getByPath_ext s₀ s₁ (ext ++ [⟨L, cf, meta⟩])
    (by rw [h1, List.append_assoc]) hwf hext' path
  have hLmem : L ∈ resolvePath s₁ path := by
    conv_lhs => rw [← path_eq_dropLast_last path hp]
    rw [resolve_snoc, mem_levelIds]
    refine ⟨⟨L, cf, meta⟩, ?_, rfl, hcf, ?_⟩
    · rw [h1]
      exact List.mem_append_right _ (List.mem_singleton.mpr rfl)
    · exact hfn
  have hextNot : ∀ e ∈ ext, e.id ∉ resolvePath s₁ path := by
    intro e he hin
    obtain ⟨i, hi, hin'⟩ := hext5 e he
    have hmem : e ∈ s₁.nodes := by
      rw [h1]
      exact List.mem_append_left _ (List.mem_append_right _ he)
    have hpaths := resolve_unique s₁ h2 path (path.dropLast.take (i + 1)) e.id
      ⟨e, hmem, rfl⟩ hin hin'
    have hlen := congrArg List.length hpaths
    rw [List.length_take] at hlen
    have hmle : min (i + 1) path.dropLast.length ≤ path.dropLast.length :=
      Nat.min_le_right _ _
    have hpl : 0 < path.length := List.length_pos.mpr hp
    have hdll : path.dropLast.length = path.length - 1 := List.length_dropLast _
    omega
  have hfilter : (ext ++ [(⟨L, cf, meta⟩ : TreeStNode)]).filter
      (fun n => decide (n.id ∈ resolvePath s₁ path)) = [⟨L, cf, meta⟩] := by
    rw [List.filter_append, List.filter_eq_nil_iff.mpr, List.nil_append, List.filter_cons,
      if_pos (decide_eq_true hLmem)]
    · rfl
    · intro e he
      simp only [decide_eq_true_eq]
      exact hextNot e he
  rw [hgb, hfilter]

theorem slot_first (s₀ : TreeState) (fp : Str) (v : NodeVersionM)
    (hwf : WfState s₀) (hfp : v.filePath = fp) (hunv : v.isUnversioned = true)
    (hstart : ∀ n ∈ svcGetByPath s₀ (pathFromName fp),
      (newTreeNode (toNodeResp n)).isSome = true ∧ n.meta.lookup isUnversionedKV = none) :
    ∃ L P, (addVersionState s₀ v).1 = .ok () ∧
      SlotInv s₀ (addVersionState s₀ v).2 (pathFromName fp) L P v := by
  have hold : ∀ nd ∈ (svcGetByPath s₀ (pathFromName fp)).map toNodeResp,
      (newTreeNode nd).isSome = true ∧ nd.meta.lookup isUnversionedKV = none := by
    intro nd hnd
    obtain ⟨n, hn, rfl⟩ := List.mem_map.mp hnd
    exact ⟨(hstart n hn).1, (hstart n hn).2⟩
  obtain ⟨vsOld, hdec, hflags⟩ := decodeVersions_flags fp _ hold
  have hnilf : vsOld.filter (·.isUnversioned) = [] :=
    List.filter_eq_nil_iff.mpr fun x hx => by simp [hflags x hx]
  have hgv : getVersionsState s₀ fp true = .ok [] := by
    rw [getVersionsState]
    simp only [getVersionsFromNodes, hdec]
    simp [hnilf]
  have hget : getUnversionedState s₀ fp = .error TreeErr.nodeNotFound := by
    rw [getUnversionedState, hgv]
    rfl
  have hstep : addVersionState s₀ v = (.ok (),
      (svcAddByPathGo (versionMeta v (pathFromName fp)) s₀ 0
        (pathFromName fp).dropLast).2) := by
    simp only [addVersionState, hfp, hunv, if_true, hget]
    rfl
  obtain ⟨ext, cf, h1, h2, h3, h4, h5⟩ :=
    walk_spec (versionMeta v (pathFromName fp)) (pathFromName fp).dropLast s₀ 0 hwf hwf.2.1
  obtain ⟨hcf, hext5⟩ := h5 [0] (List.mem_singleton.mpr rfl)
  refine ⟨(svcAddByPathGo (versionMeta v (pathFromName fp)) s₀ 0
    (pathFromName fp).dropLast).1, cf, by rw [hstep], ?_⟩
  rw [hstep]
  refine ⟨h2, h3, resolve_mem_lt _ h2 (pathFromName fp).dropLast cf hcf, ?_⟩
  exact slot_post s₀ _ (pathFromName fp) _ cf (versionMeta v (pathFromName fp))
    (pathFromName_ne_nil fp) (versionMeta_fileName v (pathFromName fp)) ext h1 hwf h2 h3 h4
    hcf hext5
theorem slot_step (s₀ s : TreeState) (fp : Str) (v w : NodeVersionM) (L P : Nat)
    (hwf0 : WfState s₀)
    (hstart : ∀ n ∈ svcGetByPath s₀ (pathFromName fp),
      (newTreeNode (toNodeResp n)).isSome = true ∧ n.meta.lookup isUnversionedKV = none)
    (hinv : SlotInv s₀ s (pathFromName fp) L P w)
    (hwa : w.isUnversioned = true) (hwlo : -(int64Bound : Int) ≤ w.size)
    (hwhi : w.size < int64Bound) (hfp : v.filePath = fp) (hunv : v.isUnversioned = true) :
    (addVersionState s v).1 = .ok () ∧
      SlotInv s₀ (addVersionState s v).2 (pathFromName fp) L P v := by
  obtain ⟨hwfs, hL, hP, hgp⟩ := hinv
  have hold : ∀ nd ∈ (svcGetByPath s₀ (pathFromName fp)).map toNodeResp,
      (newTreeNode nd).isSome = true ∧ nd.meta.lookup isUnversionedKV = none := by
    intro nd hnd
    obtain ⟨n, hn, rfl⟩ := List.mem_map.mp hnd
    exact ⟨(hstart n hn).1, (hstart n hn).2⟩
  obtain ⟨vsOld, hdec, hflags⟩ := decodeVersions_flags fp _ hold
  obtain ⟨t, ht, htid, htflag⟩ := leaf_decode L P w (pathFromName fp) hwa hwlo hwhi
  have hnv : newNodeVersion fp (toNodeResp ⟨L, P, versionMeta w (pathFromName fp)⟩) =
      some (newNodeVersionFromTreeNode fp t) := by
    rw [newNodeVersion, ht]
    rfl
  have hleafdec : decodeVersions fp [toNodeResp ⟨L, P, versionMeta w (pathFromName fp)⟩] =
      some [newNodeVersionFromTreeNode fp t] := by
    simp only [decodeVersions, hnv, Option.map_some']
  have hfull : decodeVersions fp ((svcGetByPath s (pathFromName fp)).map toNodeResp) =
      some (vsOld ++ [newNodeVersionFromTreeNode fp t]) := by
    rw [hgp, List.map_append]
    exact decodeVersions_append fp _ _ _ _ hdec hleafdec
  have hltrue : (newNodeVersionFromTreeNode fp t).isUnversioned = true := by
    show (metaGet t isUnversionedKV).isSome = true
    rw [htflag]
    rfl
  have hnilf : vsOld.filter (·.isUnversioned) = [] :=
    List.filter_eq_nil_iff.mpr fun x hx => by simp [hflags x hx]
  have hfilter : (vsOld ++ [newNodeVersionFromTreeNode fp t]).filter (·.isUnversioned) =
      [newNodeVersionFromTreeNode fp t] := by
    rw [List.filter_append, hnilf, List.nil_append, List.filter_cons, if_pos hltrue]
    rfl
  have hgv : getVersionsState s fp true = .ok [newNodeVersionFromTreeNode fp t] := by
    rw [getVersionsState]
    simp only [getVersionsFromNodes, hfull]
    simp [hfilter]
  have hget : getUnversionedState s fp = .ok (newNodeVersionFromTreeNode fp t) := by
    rw [getUnversionedState, hgv]
    rfl
  have hnodeid : (newNodeVersionFromTreeNode fp t).id = L := htid
  have hslotmem : (⟨L, P, versionMeta w (pathFromName fp)⟩ : TreeStNode) ∈ s.nodes := by
    have hmem : (⟨L, P, versionMeta w (pathFromName fp)⟩ : TreeStNode) ∈
        svcGetByPath s (pathFromName fp) := by
      rw [hgp]
      exact List.mem_append_right _ (List.mem_singleton.mpr rfl)
    exact List.mem_of_mem_filter hmem
  have hpar : getParentOf s L = some P := by
    have hfl : s.nodes.filter (fun n => n.id == L) =
        [⟨L, P, versionMeta w (pathFromName fp)⟩] :=
      filter_id_unique s.nodes hwfs.1 _ hslotmem
    rw [getParentOf, hfl]
    rfl
  have hstep : addVersionState s v =
      (.ok (), svcMove s L P (versionMeta v (pathFromName fp))) := by
    simp only [addVersionState, hfp, hunv, if_true, hget, hnodeid, hpar]
  have hname : List.lookup fileNameKV (versionMeta v (pathFromName fp)) =
      List.lookup fileNameKV (versionMeta w (pathFromName fp)) := by
    rw [versionMeta_fileName, versionMeta_fileName]
  have hmv := getByPath_move s L P (versionMeta w (pathFromName fp))
    (versionMeta v (pathFromName fp)) hwfs hslotmem hname (pathFromName fp)
  have hmold : (svcGetByPath s₀ (pathFromName fp)).map
      (fun n => if n.id = L then
        (⟨n.id, P, versionMeta v (pathFromName fp)⟩ : TreeStNode) else n) =
      svcGetByPath s₀ (pathFromName fp) := by
    have hcong : ∀ n ∈ svcGetByPath s₀ (pathFromName fp),
        (if n.id = L then (⟨n.id, P, versionMeta v (pathFromName fp)⟩ : TreeStNode) else n) =
          n := by
      intro n hn
      have hlt : n.id < s₀.nextId := (hwf0.2.2 n (List.mem_of_mem_filter hn)).2.1
      exact if_neg (by omega)
    rw [List.map_congr_left hcong]
    simp
  rw [hstep]
  refine ⟨rfl, wf_move s L P _ hwfs hP, hL, hP, ?_⟩
  rw [hmv, hgp, List.map_append, hmold]
  simp

theorem slot_run (s₀ : TreeState) (fp : Str) (hwf0 : WfState s₀)
    (hstart : ∀ n ∈ svcGetByPath s₀ (pathFromName fp),
      (newTreeNode (toNodeResp n)).isSome = true ∧ n.meta.lookup isUnversionedKV = none) :
    ∀ (vs : List NodeVersionM) (s : TreeState) (L P : Nat) (w : NodeVersionM),
      SlotInv s₀ s (pathFromName fp) L P w →
      w.isUnversioned = true → -(int64Bound : Int) ≤ w.size → w.size < int64Bound →
      (∀ u ∈ vs, u.filePath = fp ∧ u.isUnversioned = true ∧
        -(int64Bound : Int) ≤ u.size ∧ u.size < int64Bound) →
      addVersionsOk s vs = true ∧
        SlotInv s₀ (addVersions s vs) (pathFromName fp) L P (vs.getLastD w) := by
  intro vs
  induction vs with
  | nil =>
    intro s L P w hinv hwa hwlo hwhi hall
    exact ⟨rfl, hinv⟩
  | cons v rest ih =>
    intro s L P w hinv hwa hwlo hwhi hall
    obtain ⟨hfp, hunv, hlo, hhi⟩ := hall v (List.mem_cons_self v rest)
    obtain ⟨hok, hinv'⟩ := slot_step s₀ s fp v w L P hwf0 hstart hinv hwa hwlo hwhi hfp hunv
    obtain ⟨hok', hinv''⟩ := ih (addVersionState s v).2 L P v hinv' hunv hlo hhi
      (fun u hu => hall u (List.mem_cons_of_mem _ hu))
    have hpair : addVersionState s v = (Except.ok (), (addVersionState s v).2) := by
      cases hav : addVersionState s v with
      | mk a b =>
        have ha : a = Except.ok () := by
          rw [hav] at hok
          exact hok
        rw [ha]
    constructor
    · simp only [addVersionsOk]
      rw [hpair]
      exact hok'
    · rw [show (v :: rest).getLastD w = rest.getLastD v from List.getLastD_cons w v rest]
      exact hinv''

/-- C6: as stated — exactly one version node at the path afterward — the
claim fails: a pre-existing versioned (non-unversioned) node at the same
path survives every call, so two version nodes remain; the start state
below has no unversioned node at the path, as the claim requires. -/
theorem addVersion_unversioned_slot_cex :
    (∀ n ∈ svcGetByPath (⟨[⟨1, 0, [(oidKV, encodeOid 7), (fileNameKV, strOf "a")]⟩], 2⟩ :
        TreeState) (pathFromName (strOf "a")), n.meta.lookup isUnversionedKV = none) ∧
    addVersionsOk ⟨[⟨1, 0, [(oidKV, encodeOid 7), (fileNameKV, strOf "a")]⟩], 2⟩
      [⟨0, 5, 0, 0, [], strOf "a", none, true⟩] = true ∧
    (versionNodesAt (addVersions ⟨[⟨1, 0, [(oidKV, encodeOid 7), (fileNameKV, strOf "a")]⟩], 2⟩
      [⟨0, 5, 0, 0, [], strOf "a", none, true⟩]) (pathFromName (strOf "a"))).length = 2 := by
  decide

/-- C6 (amended): starting from a well-formed state whose nodes at the path
all decode and none of which carries the unversioned flag, a nonempty run
of sequential `AddVersion` calls with `IsUnversioned = true` at the same
path (versions with int64-ranged sizes) all succeed, and afterward the
version nodes at the path are exactly the initial ones plus a single slot
node: its id is fresh, its metadata is the last call's metadata, and its
stored OID decodes to the OID supplied by the last call.  Exactly one
version node remains only when the path initially held none. -/
theorem addVersion_unversioned_slot (s₀ : TreeState) (fp : Str) (v : NodeVersionM)
    (rest : List NodeVersionM) (hwf : WfState s₀)
    (hall : ∀ u ∈ v :: rest, u.filePath = fp ∧ u.isUnversioned = true ∧
      -(int64Bound : Int) ≤ u.size ∧ u.size < int64Bound)
    (hstart : ∀ n ∈ svcGetByPath s₀ (pathFromName fp),
      (newTreeNode (toNodeResp n)).isSome = true ∧ n.meta.lookup isUnversionedKV = none) :
    addVersionsOk s₀ (v :: rest) = true ∧
    ∃ L P, s₀.nextId ≤ L ∧
      versionNodesAt (addVersions s₀ (v :: rest)) (pathFromName fp) =
        versionNodesAt s₀ (pathFromName fp) ++
          [⟨L, P, versionMeta (rest.getLastD v) (pathFromName fp)⟩] ∧
      ((versionMeta (rest.getLastD v) (pathFromName fp)).lookup oidKV).bind decodeOid =
        some (rest.getLastD v).oid := by
  obtain ⟨hfp, hunv, hlo, hhi⟩ := hall v (List.mem_cons_self v rest)
  obtain ⟨L, P, hok1, hinv1⟩ := slot_first s₀ fp v hwf hfp hunv hstart
  obtain ⟨hokr, hinvr⟩ := slot_run s₀ fp hwf hstart rest (addVersionState s₀ v).2 L P v
    hinv1 hunv hlo hhi (fun u hu => hall u (List.mem_cons_of_mem _ hu))
  have hpair : addVersionState s₀ v = (Except.ok (), (addVersionState s₀ v).2) := by
    cases hav : addVersionState s₀ v with
    | mk a b =>
      have ha : a = Except.ok () := by
        rw [hav] at hok1
        exact hok1
      rw [ha]
  constructor
  · simp only [addVersionsOk]
    rw [hpair]
    exact hokr
  · obtain ⟨hwfF, hLF, hPF, hgpF⟩ := hinvr
    refine ⟨L, P, hLF, ?_, ?_⟩
    · rw [show addVersions s₀ (v :: rest) = addVersions (addVersionState s₀ v).2 rest from rfl,
        versionNodesAt, hgpF, List.filter_append, List.filter_cons]
      rw [if_pos]
      · rfl
      · show ((versionMeta (rest.getLastD v) (pathFromName fp)).lookup oidKV).isSome = true
        rw [versionMeta_oid]
        rfl
    · rw [versionMeta_oid]
      show decodeOid (encodeOid (rest.getLastD v).oid) = some (rest.getLastD v).oid
      rw [decodeOid, encodeOid, parseNat_natToStr]

/-- C6 witness: a first unversioned `AddVersion` at key "a" on the empty
well-formed state, theorem hypotheses checked on the concrete input. -/
theorem addVersion_unversioned_slot_witness :
    (WfState (⟨[], 1⟩ : TreeState) ∧
      (∀ u ∈ [(⟨0, 5, 0, 0, [], strOf "a", none, true⟩ : NodeVersionM)],
        u.filePath = strOf "a" ∧ u.isUnversioned = true ∧
          -(int64Bound : Int) ≤ u.size ∧ u.size < int64Bound) ∧
      (∀ n ∈ svcGetByPath (⟨[], 1⟩ : TreeState) (pathFromName (strOf "a")),
        (newTreeNode (toNodeResp n)).isSome = true ∧
          n.meta.lookup isUnversionedKV = none)) ∧
    (addVersionsOk ⟨[], 1⟩ [⟨0, 5, 0, 0, [], strOf "a", none, true⟩] = true ∧
    ∃ L P, (⟨[], 1⟩ : TreeState).nextId ≤ L ∧
      versionNodesAt (addVersions ⟨[], 1⟩ [⟨0, 5, 0, 0, [], strOf "a", none, true⟩])
          (pathFromName (strOf "a")) =
        versionNodesAt ⟨[], 1⟩ (pathFromName (strOf "a")) ++
          [⟨L, P, versionMeta (([] : List NodeVersionM).getLastD
            ⟨0, 5, 0, 0, [], strOf "a", none, true⟩) (pathFromName (strOf "a"))⟩] ∧
      ((versionMeta (([] : List NodeVersionM).getLastD
          ⟨0, 5, 0, 0, [], strOf "a", none, true⟩) (pathFromName (strOf "a"))).lookup
            oidKV).bind decodeOid =
        some (([] : List NodeVersionM).getLastD
          ⟨0, 5, 0, 0, [], strOf "a", none, true⟩).oid) :=
  ⟨⟨by decide, by decide, by decide⟩,
    addVersion_unversioned_slot ⟨[], 1⟩ (strOf "a")
      ⟨0, 5, 0, 0, [], strOf "a", none, true⟩ [] (by decide) (by decide) (by decide)⟩

end NeoGw
